import Mathlib

/-!
# Minimum aggregate of the log storage (`lib/logstorage/stats_min.go`)

A shallow embedding of `statsMin` / `statsMinProcessor` and of the part of the
block model (`blockResult`, `blockResultColumn`) that the aggregate reads.

Conventions of the embedding:

* a Go `string` is a Lean `String`; `len(s)` is `String.utf8ByteSize s`;
* a method with a pointer receiver becomes a function returning the receiver's
  next value;
* a Go panic is the error side of `Except panic`;
* `int64` timestamps are `Int`, `uint64` payloads are `Nat`, narrowing
  conversions are written with an explicit modulus.
-/

namespace logstorage

/-! ## Helpers declared outside `stats_min.go` -/

/-- Modelled from the spec: `lessString`, the string-ordering comparator of the
engine, is declared outside `stats_min.go`. The spec words it as "ordinary
byte/codepoint lexical order over the canonical textual rendering, NOT numeric
order": the lexicographic order of the two character sequences, which is the
order `<` of `String`. -/
def lessString (a b : String) : Bool :=
  decide (a.data < b.data)

/-- The configuration of `min(...)`: `type statsMin struct`. -/
structure statsMin where
  /-- the parsed field names -/
  fields : List String
  /-- whether `*` is among the fields -/
  containsStar : Bool
  deriving DecidableEq, Repr

/-- The running state: `type statsMinProcessor struct`. -/
structure statsMinProcessor where
  /-- the configuration the processor was created from -/
  sm : statsMin
  /-- the smallest value seen so far -/
  min : String
  /-- whether any value has been seen -/
  hasMin : Bool
  deriving DecidableEq, Repr

/-- The result of `unsafe.Sizeof(*smp)` on a 64-bit target: a pointer (8 bytes),
a string header (16 bytes) and a bool, padded to the 8-byte alignment. -/
def statsMinProcessorSize : Int := 32

/-- The method `(sm *statsMin) newStatsProcessor`: the zero-valued processor
(`min = ""`, `hasMin = false`) together with its size. -/
def statsMin.newStatsProcessor (sm : statsMin) : statsMinProcessor × Int :=
  ({ sm := sm, min := "", hasMin := false }, statsMinProcessorSize)

/-- The method `updateStateString`: return early when a value is held and `v` is
not less than it, otherwise store (a copy of) `v` and set `hasMin`. -/
def statsMinProcessor.updateStateString (smp : statsMinProcessor) (v : String) :
    statsMinProcessor :=
  if smp.hasMin && !lessString v smp.min then
    smp
  else
    { smp with min := v, hasMin := true }

/-- The method `updateStateBytes`: view the bytes as a string and fold it. The
rendered bytes are already a `String` in this embedding. -/
def statsMinProcessor.updateStateBytes (smp : statsMinProcessor) (b : String) :
    statsMinProcessor :=
  smp.updateStateString b

/-- The method `mergeState`: fold `src.min` into the receiver when `src` holds a
value. Both objects are returned, the receiver first; `src` is only read. -/
def statsMinProcessor.mergeState (smp src : statsMinProcessor) :
    statsMinProcessor × statsMinProcessor :=
  if src.hasMin then
    (smp.updateStateString src.min, src)
  else
    (smp, src)

/-- The method `finalizeStats`. -/
def statsMinProcessor.finalizeStats (smp : statsMinProcessor) : String :=
  if !smp.hasMin then "NaN" else smp.min

/-- Folding a list of values one by one with `updateStateString`. -/
def foldValues (smp : statsMinProcessor) (xs : List String) : statsMinProcessor :=
  xs.foldl statsMinProcessor.updateStateString smp

/-! ## The block model read by the aggregate -/

/-- Modelled from the spec: the physical value type of a column, "one of
string, dictionary, uint8, uint16, uint32, uint64, float64, ipv4,
iso8601-timestamp" (the time column is told apart by `isTime`). The
constructors carry the names the source dispatches on; `valueTypeUnknown tag`
stands for every tag outside the enumerated set. -/
inductive valueType where
  | valueTypeUnknown (tag : Nat)
  | valueTypeString
  | valueTypeDict
  | valueTypeUint8
  | valueTypeUint16
  | valueTypeUint32
  | valueTypeUint64
  | valueTypeFloat64
  | valueTypeIPv4
  | valueTypeTimestampISO8601
  deriving DecidableEq, Repr

/-- The ways in which the embedded code can abort. -/
inductive panic where
  /-- the call `logger.Panicf("BUG: unknown valueType=%d", c.valueType)` -/
  | bugUnknownValueType (tag : Nat)
  /-- an index expression out of range -/
  | indexOutOfRange
  deriving DecidableEq, Repr

/-- The text renderers that are declared outside `stats_min.go` and whose output
format is not fixed here; they are parameters of the embedding. Timestamps are
`int64` values; `marshalFloat64String` is taken on the stored 64-bit pattern,
that is, composed with `math.Float64frombits`. -/
structure marshalFuncs where
  /-- RFC3339 text with nanoseconds of a timestamp -/
  marshalTimestampRFC3339NanoString : Int → String
  /-- canonical float text of the value with the given bit pattern -/
  marshalFloat64String : Nat → String
  /-- ISO8601 text of a timestamp -/
  marshalTimestampISO8601String : Int → String

/-- Modelled from the spec: `marshalUint64String` is declared outside
`stats_min.go`; the spec has it "render the numeric cached minimum as a base-10
integer string". -/
def marshalUint64String (n : Nat) : String :=
  Nat.repr n

/-- Modelled from the spec: `marshalIPv4String` is declared outside
`stats_min.go`; the spec has it "render the stored 32-bit value as
dotted-quad". -/
def marshalIPv4String (n : Nat) : String :=
  marshalUint64String (n / 2 ^ 24 % 256) ++ "." ++ marshalUint64String (n / 2 ^ 16 % 256) ++ "."
    ++ marshalUint64String (n / 2 ^ 8 % 256) ++ "." ++ marshalUint64String (n % 256)

/-- The conversion `uint32(x)` of a `uint64`. -/
def toUint32 (x : Nat) : Nat :=
  x % 2 ^ 32

/-- The conversion `int64(x)` of a `uint64` (two's complement). -/
def toInt64 (x : Nat) : Int :=
  if x % 2 ^ 64 < 2 ^ 63 then (x % 2 ^ 64 : Nat) else ((x % 2 ^ 64 : Nat) : Int) - 2 ^ 64

/-- The part of `columnHeader` that the aggregate reads: the cached minimum of
the column in the block, a `uint64`. -/
structure columnHeader where
  /-- cached block minimum (number, bit pattern of a float, or timestamp) -/
  minValue : Nat
  deriving DecidableEq, Repr

/-- Modelled from the spec: `blockResultColumn`, the typed column view, is
declared outside `stats_min.go`. The fields `isTime`, `isConst`, `valueType`,
`valuesEncoded`, `dictValues` and `ch` are the ones the source reads.
`valuesEncoded` holds the single value of a constant column and the per-row
text of a string column. `valuesPayload` holds what the per-row encoded values
of the other encodings decode to: the "per-row indices into that distinct set"
of a dictionary column, and the stored unsigned value (number, float bit
pattern, IPv4 address, timestamp) of a numeric column. -/
structure blockResultColumn where
  /-- the column name -/
  name : String
  /-- whether every row shares one value -/
  isConst : Bool
  /-- whether this is the time column of the block -/
  isTime : Bool
  /-- the physical encoding -/
  valueType : valueType
  /-- the distinct values of a dictionary column -/
  dictValues : List String
  /-- the encoded text values -/
  valuesEncoded : List String
  /-- the decoded per-row payload of dictionary and numeric columns -/
  valuesPayload : List Nat
  /-- the column header with the cached minimum -/
  ch : columnHeader
  deriving DecidableEq, Repr

/-- Modelled from the spec: `blockResult`, the query block, is declared outside
`stats_min.go`: "a columnar batch of rows" with "a shared timestamp column" and
its columns; the row count is `len(timestamps)`. -/
structure blockResult where
  /-- one timestamp per row -/
  timestamps : List Int
  /-- the columns, in the order `getColumns` returns them -/
  cs : List blockResultColumn
  deriving DecidableEq, Repr

deriving instance DecidableEq for Except

/-- An index expression `xs[i]` of Go: it aborts when `i` is out of range. -/
def index {α : Type} (xs : List α) (i : Nat) : Except panic α :=
  match xs.get? i with
  | some x => .ok x
  | none => .error panic.indexOutOfRange

/-- Modelled from the spec: `getColumns` returns the columns of the block. -/
def blockResult.getColumns (br : blockResult) : List blockResultColumn :=
  br.cs

/-- Modelled from the spec: `getColumnByName` follows the "mapping from column
name to Typed Column View": it returns the column of that name. The spec does
not say what a name without a column gives; the embedding takes the engine's
convention that such a field reads as the empty string in every row, a constant
column holding "". -/
def blockResult.getColumnByName (br : blockResult) (columnName : String) : blockResultColumn :=
  match br.getColumns.find? (fun c => c.name == columnName) with
  | some c => c
  | none =>
    { name := columnName, isConst := true, isTime := false,
      valueType := valueType.valueTypeUnknown 0, dictValues := [], valuesEncoded := [""],
      valuesPayload := [], ch := ⟨0⟩ }

/-- Modelled from the spec: `getValuesEncoded` gives the per-row encoded text
values of the column. -/
def blockResultColumn.getValuesEncoded (c : blockResultColumn) (_br : blockResult) : List String :=
  c.valuesEncoded

/-- Modelled from the spec: `getValueAtRow` is declared outside `stats_min.go`.
It does what the spec asks of the per-row path: "fetch that column's value at
rowIndex through the Typed Column View, normalize it": the single value of a
constant column, the RFC3339 text of the row timestamp for the time column, the
text itself for a string column, the dictionary entry the row index points to,
and the text rendering of the stored value for the numeric encodings; a value
type outside the enumerated set aborts. -/
def blockResultColumn.getValueAtRow (m : marshalFuncs) (c : blockResultColumn) (br : blockResult)
    (rowIdx : Nat) : Except panic String :=
  if c.isConst then
    index c.valuesEncoded 0
  else if c.isTime then
    (index br.timestamps rowIdx).map m.marshalTimestampRFC3339NanoString
  else
    match c.valueType with
    | .valueTypeString => index c.valuesEncoded rowIdx
    | .valueTypeDict => (index c.valuesPayload rowIdx).bind (index c.dictValues)
    | .valueTypeUint8 => (index c.valuesPayload rowIdx).map marshalUint64String
    | .valueTypeUint16 => (index c.valuesPayload rowIdx).map marshalUint64String
    | .valueTypeUint32 => (index c.valuesPayload rowIdx).map marshalUint64String
    | .valueTypeUint64 => (index c.valuesPayload rowIdx).map marshalUint64String
    | .valueTypeFloat64 => (index c.valuesPayload rowIdx).map m.marshalFloat64String
    | .valueTypeIPv4 => (index c.valuesPayload rowIdx).map (fun n => marshalIPv4String (toUint32 n))
    | .valueTypeTimestampISO8601 =>
      (index c.valuesPayload rowIdx).map (fun n => m.marshalTimestampISO8601String (toInt64 n))
    | .valueTypeUnknown tag => .error (panic.bugUnknownValueType tag)

/-! ## The update paths of `stats_min.go` -/

/-- The loop `minTimestamp := timestamps[0]; for _, timestamp := range
timestamps[1:]` of the time-column case. -/
def minTimestampOf (t0 : Int) (rest : List Int) : Int :=
  rest.foldl (fun minTimestamp timestamp => if timestamp < minTimestamp then timestamp else minTimestamp) t0

/-- The method `updateStateForColumn`. -/
def statsMinProcessor.updateStateForColumn (m : marshalFuncs) (smp : statsMinProcessor)
    (br : blockResult) (c : blockResultColumn) : Except panic statsMinProcessor :=
  if br.timestamps.length = 0 then
    .ok smp
  else if c.isTime then
    match br.timestamps with
    | [] => .error panic.indexOutOfRange
    | t0 :: rest =>
      .ok (smp.updateStateBytes (m.marshalTimestampRFC3339NanoString (minTimestampOf t0 rest)))
  else if c.isConst then
    match c.valuesEncoded with
    | [] => .error panic.indexOutOfRange
    | v :: _ => .ok (smp.updateStateString v)
  else
    match c.valueType with
    | .valueTypeString =>
      .ok ((c.getValuesEncoded br).foldl statsMinProcessor.updateStateString smp)
    | .valueTypeDict =>
      .ok (c.dictValues.foldl statsMinProcessor.updateStateString smp)
    | .valueTypeUint8 => .ok (smp.updateStateBytes (marshalUint64String c.ch.minValue))
    | .valueTypeUint16 => .ok (smp.updateStateBytes (marshalUint64String c.ch.minValue))
    | .valueTypeUint32 => .ok (smp.updateStateBytes (marshalUint64String c.ch.minValue))
    | .valueTypeUint64 => .ok (smp.updateStateBytes (marshalUint64String c.ch.minValue))
    | .valueTypeFloat64 => .ok (smp.updateStateBytes (m.marshalFloat64String c.ch.minValue))
    | .valueTypeIPv4 => .ok (smp.updateStateBytes (marshalIPv4String (toUint32 c.ch.minValue)))
    | .valueTypeTimestampISO8601 =>
      .ok (smp.updateStateBytes (m.marshalTimestampISO8601String (toInt64 c.ch.minValue)))
    | .valueTypeUnknown tag => .error (panic.bugUnknownValueType tag)

/-- The length `len(s)` of a Go string, in bytes. -/
def len (s : String) : Int :=
  s.utf8ByteSize

/-- One iteration of the loops of `updateStatsForRow`: read the value of the
column at the row and fold it. -/
def statsMinProcessor.updateStateForValueAtRow (m : marshalFuncs) (br : blockResult) (rowIdx : Nat)
    (smp : statsMinProcessor) (c : blockResultColumn) : Except panic statsMinProcessor :=
  (c.getValueAtRow m br rowIdx).map smp.updateStateString

/-- The method `updateStatsForAllRows`: the next state and the returned
`len(smp.min) - minLen`. -/
def statsMinProcessor.updateStatsForAllRows (m : marshalFuncs) (smp : statsMinProcessor)
    (br : blockResult) : Except panic (statsMinProcessor × Int) :=
  let minLen := len smp.min
  (if smp.sm.containsStar then
    br.getColumns.foldlM (fun s c => s.updateStateForColumn m br c) smp
  else
    smp.sm.fields.foldlM (fun s field => s.updateStateForColumn m br (br.getColumnByName field)) smp).map
    (fun s => (s, len s.min - minLen))

/-- The method `updateStatsForRow`: the next state and the returned
`minLen - len(smp.min)`. -/
def statsMinProcessor.updateStatsForRow (m : marshalFuncs) (smp : statsMinProcessor)
    (br : blockResult) (rowIdx : Nat) : Except panic (statsMinProcessor × Int) :=
  let minLen := len smp.min
  (if smp.sm.containsStar then
    br.getColumns.foldlM (fun s c => s.updateStateForValueAtRow m br rowIdx c) smp
  else
    smp.sm.fields.foldlM
      (fun s field => s.updateStateForValueAtRow m br rowIdx (br.getColumnByName field)) smp).map
    (fun s => (s, minLen - len s.min))

/-- Calling `updateStatsForRow` for every row index of the block, in row order. -/
def statsMinProcessor.updateStatsForEveryRow (m : marshalFuncs) (smp : statsMinProcessor)
    (br : blockResult) : Except panic statsMinProcessor :=
  (List.range br.timestamps.length).foldlM
    (fun s rowIdx => (s.updateStatsForRow m br rowIdx).map Prod.fst) smp

/-- The function `parseStatsMin`, on the outcome of `parseFieldNamesForStatsFunc(lex, "min")`,
which is declared outside `stats_min.go`. -/
def parseStatsMin (parsed : Except String (List String)) : Except String statsMin :=
  match parsed with
  | .error err => .error err
  | .ok fields => .ok { fields := fields, containsStar := fields.contains "*" }

/-- A sample set of renderers, for evaluating the paths on concrete blocks. -/
def sampleMarshalFuncs : marshalFuncs :=
  { marshalTimestampRFC3339NanoString := fun t => "t" ++ toString t
    marshalFloat64String := fun n => "f" ++ toString n
    marshalTimestampISO8601String := fun t => "i" ++ toString t }

/-- A block of two rows with one `uint8` column `n` holding 10 and 2, cached
minimum 2. -/
def uintBlock : blockResult :=
  { timestamps := [1, 2]
    cs := [{ name := "n", isConst := false, isTime := false, valueType := valueType.valueTypeUint8,
             dictValues := [], valuesEncoded := [], valuesPayload := [10, 2], ch := ⟨2⟩ }] }

/-- The state with its configuration pointer replaced. -/
def statsMinProcessor.withSm (sm : statsMin) (smp : statsMinProcessor) : statsMinProcessor :=
  { smp with sm := sm }

/-- What a caller observes of an update call: the `min` and `hasMin` after the
call and the returned integer. -/
def observed (r : statsMinProcessor × Int) : String × Bool × Int :=
  (r.1.min, r.1.hasMin, r.2)

/-- The columns an update call visits: every column of the block for the
wildcard, the columns named by the fields otherwise. -/
def selectedColumns (sm : statsMin) (br : blockResult) : List blockResultColumn :=
  if sm.containsStar then br.getColumns else sm.fields.map br.getColumnByName

/-- The value `getValueAtRow` reads (the empty string where it aborts). -/
def rowValue (m : marshalFuncs) (br : blockResult) (c : blockResultColumn) (rowIdx : Nat) : String :=
  match c.getValueAtRow m br rowIdx with
  | .ok v => v
  | .error _ => ""

/-- The minimum the time-column case of `updateStateForColumn` scans for. -/
def minTimestamp (timestamps : List Int) : Int :=
  match timestamps with
  | [] => 0
  | t0 :: rest => minTimestampOf t0 rest

/-- The values `updateStateForColumn` folds for a column of a non-empty block,
in the order it folds them. -/
def blockResultColumn.foldedValues (m : marshalFuncs) (c : blockResultColumn) (br : blockResult) :
    List String :=
  if c.isTime then
    [m.marshalTimestampRFC3339NanoString (minTimestamp br.timestamps)]
  else if c.isConst then
    c.valuesEncoded.take 1
  else
    match c.valueType with
    | .valueTypeString => c.valuesEncoded
    | .valueTypeDict => c.dictValues
    | .valueTypeUint8 => [marshalUint64String c.ch.minValue]
    | .valueTypeUint16 => [marshalUint64String c.ch.minValue]
    | .valueTypeUint32 => [marshalUint64String c.ch.minValue]
    | .valueTypeUint64 => [marshalUint64String c.ch.minValue]
    | .valueTypeFloat64 => [m.marshalFloat64String c.ch.minValue]
    | .valueTypeIPv4 => [marshalIPv4String (toUint32 c.ch.minValue)]
    | .valueTypeTimestampISO8601 => [m.marshalTimestampISO8601String (toInt64 c.ch.minValue)]
    | .valueTypeUnknown _ => []

/-- For a numeric column rendered by `render`: there is one payload per row, the
cached minimum is the payload of some row, and no row renders to a text that is
lexically less than the text of the cached minimum. -/
def payloadAgrees (render : Nat → String) (c : blockResultColumn) (br : blockResult) : Prop :=
  c.valuesPayload.length = br.timestamps.length ∧ c.ch.minValue ∈ c.valuesPayload ∧
    ∀ p ∈ c.valuesPayload, lessString (render p) (render c.ch.minValue) = false

/-- The condition on a column under which the per-row path and the whole-block
path see the same lexical minimum:
* time column: no row timestamp renders lexically below the rendered minimum;
* constant column: its value is stored;
* string column: one value per row;
* dictionary column: one index per row, every index points into the dictionary,
  and every dictionary entry is the value of some row;
* numeric column: `payloadAgrees` for its renderer. -/
def blockResultColumn.pathsAgree (m : marshalFuncs) (c : blockResultColumn) (br : blockResult) :
    Prop :=
  if c.isConst then
    c.isTime = false ∧ c.valuesEncoded ≠ []
  else if c.isTime then
    ∀ t ∈ br.timestamps,
      lessString (m.marshalTimestampRFC3339NanoString t)
        (m.marshalTimestampRFC3339NanoString (minTimestamp br.timestamps)) = false
  else
    match c.valueType with
    | .valueTypeString => c.valuesEncoded.length = br.timestamps.length
    | .valueTypeDict =>
      c.valuesPayload.length = br.timestamps.length ∧
        (∀ p ∈ c.valuesPayload, p < c.dictValues.length) ∧
        ∀ d ∈ c.dictValues, ∃ p ∈ c.valuesPayload, c.dictValues.get? p = some d
    | .valueTypeUint8 => payloadAgrees marshalUint64String c br
    | .valueTypeUint16 => payloadAgrees marshalUint64String c br
    | .valueTypeUint32 => payloadAgrees marshalUint64String c br
    | .valueTypeUint64 => payloadAgrees marshalUint64String c br
    | .valueTypeFloat64 => payloadAgrees m.marshalFloat64String c br
    | .valueTypeIPv4 => payloadAgrees (fun n => marshalIPv4String (toUint32 n)) c br
    | .valueTypeTimestampISO8601 =>
      payloadAgrees (fun n => m.marshalTimestampISO8601String (toInt64 n)) c br
    | .valueTypeUnknown _ => False

/-- The precondition the spec puts on a numeric column: the cached block minimum
is the numeric minimum of the row values. -/
def blockResultColumn.cachedMinIsRowMin (c : blockResultColumn) : Prop :=
  c.ch.minValue ∈ c.valuesPayload ∧ ∀ p ∈ c.valuesPayload, c.ch.minValue ≤ p

/-- A block of four rows: the constant column `x` = "z", the string column `s`
and the dictionary column `d` with the rows "b", "a", "a", "c". -/
def mixedBlock : blockResult :=
  { timestamps := [40, 10, 30, 20]
    cs := [{ name := "x", isConst := true, isTime := false, valueType := valueType.valueTypeString,
             dictValues := [], valuesEncoded := ["z"], valuesPayload := [], ch := ⟨0⟩ },
           { name := "s", isConst := false, isTime := false, valueType := valueType.valueTypeString,
             dictValues := [], valuesEncoded := ["q", "p", "r", "p"], valuesPayload := [],
             ch := ⟨0⟩ },
           { name := "d", isConst := false, isTime := false, valueType := valueType.valueTypeDict,
             dictValues := ["a", "b", "c"], valuesEncoded := [], valuesPayload := [1, 0, 0, 2],
             ch := ⟨0⟩ }] }

/-- Whether the value type is one of the enumerated encodings. -/
def valueType.isKnown : valueType → Bool
  | .valueTypeUnknown _ => false
  | _ => true

/-- The storage contract of a column view in a block, as the spec words it in its
data model: the time column is not constant, a constant column stores its
value, a string column has one value per row, a dictionary column has one index
per row and every index points into the dictionary, and a numeric column has
one payload per row. -/
def blockResultColumn.wellFormed (c : blockResultColumn) (br : blockResult) : Prop :=
  if c.isTime then
    c.isConst = false
  else if c.isConst then
    c.valuesEncoded ≠ []
  else
    match c.valueType with
    | .valueTypeUnknown _ => True
    | .valueTypeString => c.valuesEncoded.length = br.timestamps.length
    | .valueTypeDict =>
      c.valuesPayload.length = br.timestamps.length ∧
        ∀ p ∈ c.valuesPayload, p < c.dictValues.length
    | _ => c.valuesPayload.length = br.timestamps.length

/-- The condition under which `updateStateForColumn` does not abort on a
non-empty block: the column is the time column, or a constant column that
stores its value, or a column of one of the enumerated value types. -/
def blockResultColumn.foldsWithoutPanic (c : blockResultColumn) : Prop :=
  c.isTime = true ∨ (c.isConst = true ∧ c.valuesEncoded ≠ []) ∨
    (c.isConst = false ∧ c.valueType.isKnown = true)

/-- The values the per-row path folds on a block, in the order it folds them:
row by row, and within a row column by column. -/
def allRowValues (m : marshalFuncs) (sm : statsMin) (br : blockResult) : List String :=
  ((List.range br.timestamps.length).map
    (fun i => (selectedColumns sm br).map (fun c => rowValue m br c i))).flatten

/-- The states a processor created by `newStatsProcessor` can reach through
calls of `updateStatsForRow`, `updateStatsForAllRows`, `mergeState` (with any
other state) and `updateStateString` that return. -/
inductive reachable (m : marshalFuncs) (sm : statsMin) : statsMinProcessor → Prop where
  | init : reachable m sm sm.newStatsProcessor.1
  | updateStatsForRow (s : statsMinProcessor) (br : blockResult) (rowIdx : Nat)
      (r : statsMinProcessor × Int) :
      reachable m sm s → s.updateStatsForRow m br rowIdx = .ok r → reachable m sm r.1
  | updateStatsForAllRows (s : statsMinProcessor) (br : blockResult)
      (r : statsMinProcessor × Int) :
      reachable m sm s → s.updateStatsForAllRows m br = .ok r → reachable m sm r.1
  | mergeState (s src : statsMinProcessor) :
      reachable m sm s → reachable m sm (s.mergeState src).1
  | updateStateString (s : statsMinProcessor) (v : String) :
      reachable m sm s → reachable m sm (s.updateStateString v)

/-- A block of two rows with one dictionary column `d`: the dictionary holds "a"
and "b", both rows hold "b". -/
def dictBlock : blockResult :=
  { timestamps := [1, 2]
    cs := [{ name := "d", isConst := false, isTime := false, valueType := valueType.valueTypeDict,
             dictValues := ["a", "b"], valuesEncoded := [], valuesPayload := [1, 1],
             ch := ⟨0⟩ }] }

/-- A block of one row whose field `x` is the constant string "z". -/
def constBlock : blockResult :=
  { timestamps := [7]
    cs := [{ name := "x", isConst := true, isTime := false, valueType := valueType.valueTypeString,
             dictValues := [], valuesEncoded := ["z"], valuesPayload := [], ch := ⟨0⟩ }] }

/-- A time column. -/
def timeColumn : blockResultColumn :=
  { name := "_time", isConst := false, isTime := true, valueType := valueType.valueTypeUnknown 0,
    dictValues := [], valuesEncoded := [], valuesPayload := [], ch := ⟨0⟩ }

/-- A block without rows whose columns are a time column, a constant column that
stores no value and a column of an unknown value type. -/
def emptyBlock : blockResult :=
  { timestamps := []
    cs := [timeColumn,
           { name := "k", isConst := true, isTime := false, valueType := valueType.valueTypeString,
             dictValues := [], valuesEncoded := [], valuesPayload := [], ch := ⟨0⟩ },
           { name := "u", isConst := false, isTime := false,
             valueType := valueType.valueTypeUnknown 77,
             dictValues := [], valuesEncoded := [], valuesPayload := [], ch := ⟨0⟩ }] }

/-- Merging a list of states into a state, one `mergeState` call after the
other. -/
def mergeStates (a : statsMinProcessor) (bs : List statsMinProcessor) : statsMinProcessor :=
  bs.foldl (fun acc b => (acc.mergeState b).1) a

/-! ## The comparator and the folding rule -/

theorem lessString_iff (a b : String) : lessString a b = true ↔ a < b := by
  simp [lessString, String.lt_iff_toList_lt]

theorem lessString_eq_false_iff (a b : String) : lessString a b = false ↔ b ≤ a := by
  rw [← Bool.not_eq_true, lessString_iff, not_lt]

theorem updateStateString_of_hasMin (s : statsMinProcessor) (v : String) (h : s.hasMin = true) :
    s.updateStateString v = { s with min := min s.min v } := by
  unfold statsMinProcessor.updateStateString
  by_cases hv : v < s.min
  · have h1 : lessString v s.min = true := (lessString_iff _ _).2 hv
    simp [h, h1, min_eq_right (le_of_lt hv)]
  · have h1 : lessString v s.min = false := (lessString_eq_false_iff _ _).2 (not_lt.1 hv)
    cases s with
    | mk sm mn hm =>
      simp only at h hv h1
      subst h
      simp [h1, min_eq_left (not_lt.1 hv)]

theorem updateStateString_of_not_hasMin (s : statsMinProcessor) (v : String)
    (h : s.hasMin = false) :
    s.updateStateString v = { s with min := v, hasMin := true } := by
  simp [statsMinProcessor.updateStateString, h]

theorem updateStateString_hasMin (s : statsMinProcessor) (v : String) :
    (s.updateStateString v).hasMin = true := by
  cases h : s.hasMin
  · rw [updateStateString_of_not_hasMin s v h]
  · rw [updateStateString_of_hasMin s v h]; exact h

theorem updateStateString_sm (s : statsMinProcessor) (v : String) :
    (s.updateStateString v).sm = s.sm := by
  cases h : s.hasMin
  · rw [updateStateString_of_not_hasMin s v h]
  · rw [updateStateString_of_hasMin s v h]

theorem foldl_min_assoc (a y : String) (ys : List String) :
    ys.foldl min (min a y) = min a (ys.foldl min y) := by
  induction ys generalizing y with
  | nil => rfl
  | cons z zs ih => simp only [List.foldl_cons]; rw [min_assoc, ih]

theorem foldl_min_le (a : String) (xs : List String) :
    xs.foldl min a ≤ a ∧ ∀ x ∈ xs, xs.foldl min a ≤ x := by
  induction xs generalizing a with
  | nil => simp
  | cons y ys ih =>
    simp only [List.foldl_cons, List.mem_cons, forall_eq_or_imp]
    refine ⟨le_trans (ih _).1 (min_le_left _ _), le_trans (ih _).1 (min_le_right _ _), (ih _).2⟩

theorem foldl_min_mem (a : String) (xs : List String) :
    xs.foldl min a = a ∨ xs.foldl min a ∈ xs := by
  induction xs generalizing a with
  | nil => simp
  | cons y ys ih =>
    simp only [List.foldl_cons, List.mem_cons]
    rcases ih (min a y) with h | h
    · rcases min_choice a y with h2 | h2
      · left; rw [h, h2]
      · right; left; rw [h, h2]
    · right; right; exact h

theorem foldValues_of_hasMin (s : statsMinProcessor) (xs : List String) (h : s.hasMin = true) :
    foldValues s xs = { s with min := xs.foldl min s.min } := by
  induction xs generalizing s with
  | nil => rfl
  | cons y ys ih =>
    simp only [foldValues, List.foldl_cons] at ih ⊢
    rw [ih _ (updateStateString_hasMin s y), updateStateString_of_hasMin s y h]

theorem foldValues_cons_of_not_hasMin (s : statsMinProcessor) (x : String) (xs : List String)
    (h : s.hasMin = false) :
    foldValues s (x :: xs) = { s with min := xs.foldl min x, hasMin := true } := by
  have h1 : foldValues s (x :: xs) = foldValues (s.updateStateString x) xs := rfl
  rw [h1, foldValues_of_hasMin _ _ (updateStateString_hasMin s x),
    updateStateString_of_not_hasMin s x h]

theorem foldValues_append (s : statsMinProcessor) (xs ys : List String) :
    foldValues s (xs ++ ys) = foldValues (foldValues s xs) ys := by
  simp [foldValues, List.foldl_append]

theorem updateStateString_comm (s : statsMinProcessor) (a b : String) :
    (s.updateStateString a).updateStateString b = (s.updateStateString b).updateStateString a := by
  cases h : s.hasMin
  · rw [updateStateString_of_hasMin _ b (updateStateString_hasMin s a),
      updateStateString_of_hasMin _ a (updateStateString_hasMin s b),
      updateStateString_of_not_hasMin s a h, updateStateString_of_not_hasMin s b h]
    simp [min_comm]
  · rw [updateStateString_of_hasMin _ b (updateStateString_hasMin s a),
      updateStateString_of_hasMin _ a (updateStateString_hasMin s b),
      updateStateString_of_hasMin s a h, updateStateString_of_hasMin s b h]
    simp [min_assoc, min_comm a b]

theorem foldValues_perm (s : statsMinProcessor) {xs ys : List String} (h : xs.Perm ys) :
    foldValues s xs = foldValues s ys := by
  induction h generalizing s with
  | nil => rfl
  | cons x _ ih => exact ih (s.updateStateString x)
  | swap x y l =>
    show foldValues ((s.updateStateString y).updateStateString x) l
      = foldValues ((s.updateStateString x).updateStateString y) l
    rw [updateStateString_comm]
  | trans _ _ ih1 ih2 => exact (ih1 s).trans (ih2 s)

theorem mergeState_foldValues (a b0 : statsMinProcessor) (ys : List String)
    (hb : b0.hasMin = false) :
    (a.mergeState (foldValues b0 ys)).1 = foldValues a ys := by
  cases ys with
  | nil => simp [foldValues, statsMinProcessor.mergeState, hb]
  | cons y ys =>
    rw [foldValues_cons_of_not_hasMin b0 y ys hb]
    have h1 : foldValues a (y :: ys) = foldValues (a.updateStateString y) ys := rfl
    rw [h1, foldValues_of_hasMin _ _ (updateStateString_hasMin a y)]
    simp only [statsMinProcessor.mergeState, if_true]
    cases h : a.hasMin
    · rw [updateStateString_of_not_hasMin a _ h, updateStateString_of_not_hasMin a y h]
    · rw [updateStateString_of_hasMin a _ h, updateStateString_of_hasMin a y h]
      simp [foldl_min_assoc]

theorem mergeStates_foldValues (sm : statsMin) (a : statsMinProcessor) (gs : List (List String)) :
    mergeStates a (gs.map (foldValues sm.newStatsProcessor.1)) = foldValues a gs.flatten := by
  induction gs generalizing a with
  | nil => rfl
  | cons g gs ih =>
    simp only [List.map_cons, List.flatten_cons, foldValues_append]
    rw [← ih, ← mergeState_foldValues a sm.newStatsProcessor.1 g rfl]
    rfl

/-! ## Folding, merging and finalizing -/

/-- C1: folding a non-empty list of values into a freshly constructed processor
and finalizing returns an element of the list that no element of the list is
lexically less than, and the result does not depend on the order of the list. -/
theorem fold_finalize_is_lexical_minimum (sm : statsMin) (xs : List String) (hxs : xs ≠ []) :
    (foldValues sm.newStatsProcessor.1 xs).finalizeStats ∈ xs ∧
    (∀ x ∈ xs, ¬ x < (foldValues sm.newStatsProcessor.1 xs).finalizeStats) ∧
    (∀ ys : List String, ys.Perm xs →
      (foldValues sm.newStatsProcessor.1 ys).finalizeStats
        = (foldValues sm.newStatsProcessor.1 xs).finalizeStats) := by
  cases xs with
  | nil => exact absurd rfl hxs
  | cons x xs =>
    have hfin : (foldValues sm.newStatsProcessor.1 (x :: xs)).finalizeStats = xs.foldl min x := by
      rw [foldValues_cons_of_not_hasMin _ x xs rfl]
      simp [statsMinProcessor.finalizeStats]
    refine ⟨?_, ?_, ?_⟩
    · rw [hfin]
      rcases foldl_min_mem x xs with h | h
      · rw [h]; exact List.mem_cons_self _ _
      · exact List.mem_cons_of_mem _ h
    · intro y hy
      rw [hfin]
      apply not_lt.2
      rcases List.mem_cons.1 hy with h | h
      · rw [h]; exact (foldl_min_le x xs).1
      · exact (foldl_min_le x xs).2 y h
    · intro ys hys
      rw [foldValues_perm _ hys]

/-- Witness of C1 on the values "b", "a", "a", "c". -/
theorem fold_finalize_is_lexical_minimum_witness :
    (foldValues (statsMin.newStatsProcessor ⟨["x"], false⟩).1 ["b", "a", "a", "c"]).finalizeStats
        ∈ ["b", "a", "a", "c"] ∧
    (foldValues (statsMin.newStatsProcessor ⟨["x"], false⟩).1 ["b", "a", "a", "c"]).finalizeStats
        = "a" :=
  ⟨(fold_finalize_is_lexical_minimum ⟨["x"], false⟩ ["b", "a", "a", "c"] (by decide)).1, by decide⟩

/-- C3: folding `xs` into a fresh state, `ys` into another fresh state and
merging the second into the first gives the state of folding `xs ++ ys` into a
fresh state; and for groups of values, one state per group, merged one after
the other in any order of the groups, give the state of folding all the values
into a fresh state. -/
theorem merge_of_folds_eq_fold_of_append (sm : statsMin) :
    (∀ xs ys : List String,
      ((foldValues sm.newStatsProcessor.1 xs).mergeState (foldValues sm.newStatsProcessor.1 ys)).1
        = foldValues sm.newStatsProcessor.1 (xs ++ ys)) ∧
    (∀ (g : List String) (gs rest : List (List String)), (g :: rest).Perm gs →
      mergeStates (foldValues sm.newStatsProcessor.1 g) (rest.map (foldValues sm.newStatsProcessor.1))
        = foldValues sm.newStatsProcessor.1 gs.flatten) := by
  refine ⟨fun xs ys => ?_, fun g gs rest hperm => ?_⟩
  · rw [mergeState_foldValues _ _ ys rfl, foldValues_append]
  · rw [mergeStates_foldValues, ← foldValues_append, ← List.flatten_cons]
    exact foldValues_perm _ hperm.flatten

/-- C4: the finalized result of a merge does not depend on its direction; a
state holding "alpha" and an empty state finalize to "alpha" both ways. -/
theorem mergeState_finalize_comm (a b : statsMinProcessor) :
    (a.mergeState b).1.finalizeStats = (b.mergeState a).1.finalizeStats ∧
    ((foldValues a.sm.newStatsProcessor.1 ["alpha"]).mergeState b.sm.newStatsProcessor.1).1.finalizeStats
      = "alpha" ∧
    (b.sm.newStatsProcessor.1.mergeState (foldValues a.sm.newStatsProcessor.1 ["alpha"])).1.finalizeStats
      = "alpha" := by
  refine ⟨?_, ?_, ?_⟩
  · cases ha : a.hasMin <;> cases hb : b.hasMin
    · simp [statsMinProcessor.mergeState, statsMinProcessor.finalizeStats, ha, hb]
    · simp [statsMinProcessor.mergeState, statsMinProcessor.finalizeStats, ha, hb,
        updateStateString_of_not_hasMin a _ ha]
    · simp [statsMinProcessor.mergeState, statsMinProcessor.finalizeStats, ha, hb,
        updateStateString_of_not_hasMin b _ hb]
    · simp [statsMinProcessor.mergeState, statsMinProcessor.finalizeStats, ha, hb,
        updateStateString_of_hasMin a _ ha, updateStateString_of_hasMin b _ hb, min_comm]
  · simp [statsMinProcessor.mergeState, statsMinProcessor.finalizeStats, foldValues,
      statsMin.newStatsProcessor, statsMinProcessor.updateStateString]
  · simp [statsMinProcessor.mergeState, statsMinProcessor.finalizeStats, foldValues,
      statsMin.newStatsProcessor, statsMinProcessor.updateStateString]

/-- C5: merging `b` into `a` and then `c` into the result leaves the same state
(the same `hasMin` and `min`) as merging `c` into `b` and then that result into
`a`. -/
theorem mergeState_assoc (a b c : statsMinProcessor) :
    ((a.mergeState b).1.mergeState c).1 = (a.mergeState (b.mergeState c).1).1 := by
  cases hb : b.hasMin <;> cases hc : c.hasMin
  · simp [statsMinProcessor.mergeState, hb, hc]
  · simp [statsMinProcessor.mergeState, hb, hc, updateStateString_hasMin,
      updateStateString_of_not_hasMin b _ hb]
  · simp [statsMinProcessor.mergeState, hb, hc]
  · simp only [statsMinProcessor.mergeState, hb, hc, if_true, updateStateString_hasMin]
    rw [updateStateString_of_hasMin b _ hb, updateStateString_of_hasMin _ c.min
      (updateStateString_hasMin a b.min)]
    cases ha : a.hasMin
    · rw [updateStateString_of_not_hasMin a _ ha, updateStateString_of_not_hasMin a _ ha]
    · rw [updateStateString_of_hasMin a _ ha, updateStateString_of_hasMin a _ ha]
      simp [min_assoc]

/-- C6: `finalizeStats` returns "NaN" when the state holds no value and the
held `min` otherwise; the state `newStatsProcessor` returns finalizes to
"NaN". -/
theorem finalizeStats_nan_or_min (smp : statsMinProcessor) (sm : statsMin) :
    (smp.hasMin = false → smp.finalizeStats = "NaN") ∧
    (smp.hasMin = true → smp.finalizeStats = smp.min) ∧
    sm.newStatsProcessor.1.finalizeStats = "NaN" := by
  refine ⟨fun h => ?_, fun h => ?_, rfl⟩
  · simp [statsMinProcessor.finalizeStats, h]
  · simp [statsMinProcessor.finalizeStats, h]

/-- C7: after `updateStateString v` the state has `hasMin = true`, and its
`min` is `v` if the state held no value or `v` is lexically strictly less than
the held `min`, and the held `min` otherwise. -/
theorem updateStateString_folding_rule (s : statsMinProcessor) (v : String) :
    (s.updateStateString v).hasMin = true ∧
    (s.updateStateString v).min = (if s.hasMin = false ∨ v < s.min then v else s.min) := by
  refine ⟨updateStateString_hasMin s v, ?_⟩
  cases h : s.hasMin
  · simp [updateStateString_of_not_hasMin s v h]
  · unfold statsMinProcessor.updateStateString
    by_cases hv : v < s.min
    · simp [h, hv, (lessString_iff v s.min).2 hv]
    · simp [h, hv, (lessString_eq_false_iff v s.min).2 (not_lt.1 hv)]

/-- C8: when the state already holds a value and `v` is not lexically strictly
less than it, `updateStateString v` changes nothing; hence folding a value
twice gives the state of folding it once. -/
theorem updateStateString_noop (s : statsMinProcessor) (v : String) (hs : s.hasMin = true)
    (hv : ¬ v < s.min) :
    s.updateStateString v = s ∧
    ∀ t : statsMinProcessor,
      (t.updateStateString v).updateStateString v = t.updateStateString v := by
  have key : ∀ (r : statsMinProcessor) (w : String), r.hasMin = true → ¬ w < r.min →
      r.updateStateString w = r := by
    intro r w hr hw
    simp [statsMinProcessor.updateStateString, hr, (lessString_eq_false_iff w r.min).2 (not_lt.1 hw)]
  refine ⟨key s v hs hv, fun t => key _ v (updateStateString_hasMin t v) ?_⟩
  cases ht : t.hasMin
  · rw [updateStateString_of_not_hasMin t v ht]; exact lt_irrefl v
  · rw [updateStateString_of_hasMin t v ht]; exact not_lt.2 (min_le_right _ _)

/-- Witness of C8: folding "b" into a state that holds "a". -/
theorem updateStateString_noop_witness :
    (statsMinProcessor.mk ⟨["x"], false⟩ "a" true).updateStateString "b"
      = statsMinProcessor.mk ⟨["x"], false⟩ "a" true :=
  (updateStateString_noop (statsMinProcessor.mk ⟨["x"], false⟩ "a" true) "b" rfl
    (by show ¬ "b" < "a"; rw [← lessString_iff]; decide)).1

/-- C9: `mergeState` leaves the receiver unchanged when the other state holds no
value, otherwise the receiver becomes what `updateStateString` of the other
state's `min` makes of it; the other state is unchanged in both cases. -/
theorem mergeState_frame (self other : statsMinProcessor) :
    (other.hasMin = false → (self.mergeState other).1 = self) ∧
    (other.hasMin = true → (self.mergeState other).1 = self.updateStateString other.min) ∧
    (self.mergeState other).2 = other := by
  refine ⟨fun h => ?_, fun h => ?_, ?_⟩
  · simp [statsMinProcessor.mergeState, h]
  · simp [statsMinProcessor.mergeState, h]
  · unfold statsMinProcessor.mergeState
    split <;> rfl

/-! ## Wildcard and explicit field lists -/

theorem foldlM_map_comm {α β : Type} (h : β → β) (f : β → α → Except panic β)
    (hf : ∀ s x, f (h s) x = (f s x).map h) (l : List α) (s : β) :
    l.foldlM f (h s) = (l.foldlM f s).map h := by
  induction l generalizing s with
  | nil => rfl
  | cons x xs ih =>
    simp only [List.foldlM_cons]
    rw [hf]
    cases f s x with
    | error e => rfl
    | ok r => exact ih r

theorem withSm_updateStateString (sm : statsMin) (s : statsMinProcessor) (v : String) :
    (s.withSm sm).updateStateString v = (s.updateStateString v).withSm sm := by
  unfold statsMinProcessor.updateStateString statsMinProcessor.withSm
  split <;> rfl

theorem withSm_foldValues (sm : statsMin) (s : statsMinProcessor) (xs : List String) :
    foldValues (s.withSm sm) xs = (foldValues s xs).withSm sm := by
  induction xs generalizing s with
  | nil => rfl
  | cons x xs ih =>
    show foldValues ((s.withSm sm).updateStateString x) xs = _
    rw [withSm_updateStateString, ih]
    rfl

theorem withSm_updateStateForColumn (m : marshalFuncs) (sm : statsMin) (br : blockResult)
    (s : statsMinProcessor) (c : blockResultColumn) :
    (s.withSm sm).updateStateForColumn m br c
      = (s.updateStateForColumn m br c).map (statsMinProcessor.withSm sm) := by
  have hf := withSm_foldValues sm s
  unfold foldValues at hf
  unfold statsMinProcessor.updateStateForColumn
  split
  · rfl
  · split
    · split <;> simp [Except.map, statsMinProcessor.updateStateBytes, withSm_updateStateString]
    · split
      · split <;> simp [Except.map, withSm_updateStateString]
      · split <;>
          simp [Except.map, statsMinProcessor.updateStateBytes, withSm_updateStateString, hf]

theorem withSm_updateStateForValueAtRow (m : marshalFuncs) (sm : statsMin) (br : blockResult)
    (rowIdx : Nat) (s : statsMinProcessor) (c : blockResultColumn) :
    (s.withSm sm).updateStateForValueAtRow m br rowIdx c
      = (s.updateStateForValueAtRow m br rowIdx c).map (statsMinProcessor.withSm sm) := by
  unfold statsMinProcessor.updateStateForValueAtRow
  cases c.getValueAtRow m br rowIdx with
  | error e => rfl
  | ok v => simp [Except.map, withSm_updateStateString]

theorem getColumnByName_of_mem (br : blockResult)
    (hnames : (br.getColumns.map (fun c => c.name)).Nodup) (c : blockResultColumn)
    (hc : c ∈ br.getColumns) : br.getColumnByName c.name = c := by
  unfold blockResult.getColumnByName
  generalize br.getColumns = cs at hnames hc
  induction cs with
  | nil => cases hc
  | cons d ds ih =>
    simp only [List.map_cons, List.nodup_cons, List.mem_map, not_exists, not_and] at hnames
    by_cases hd : d.name = c.name
    · have hcd : c = d := by
        rcases List.mem_cons.1 hc with h | h
        · exact h
        · exact absurd hd.symm (hnames.1 c h)
      simp [List.find?, hcd]
    · have hcd : c ∈ ds := by
        rcases List.mem_cons.1 hc with h | h
        · exact absurd (by rw [h]) hd
        · exact h
      have hb : (d.name == c.name) = false := by simp [hd]
      simp only [List.find?, hb]
      exact ih hnames.2 hcd

theorem map_getColumnByName (br : blockResult)
    (hnames : (br.getColumns.map (fun c => c.name)).Nodup) :
    (br.getColumns.map (fun c => c.name)).map br.getColumnByName = br.getColumns := by
  rw [List.map_map]
  conv_rhs => rw [← List.map_id br.getColumns]
  exact List.map_congr_left (fun c hc => getColumnByName_of_mem br hnames c hc)

theorem foldlM_fields (br : blockResult) (f : statsMinProcessor → blockResultColumn →
    Except panic statsMinProcessor) (fields : List String) (s : statsMinProcessor) :
    fields.foldlM (fun s field => f s (br.getColumnByName field)) s
      = (fields.map br.getColumnByName).foldlM f s := by
  induction fields generalizing s with
  | nil => rfl
  | cons x xs ih =>
    simp only [List.foldlM_cons, List.map_cons]
    cases f s (br.getColumnByName x) with
    | error e => rfl
    | ok r => exact ih r

/-- C10: on a block whose columns carry pairwise distinct names, a processor
with `containsStar = true` and a processor whose fields are the column names in
`getColumns` order with `containsStar = false`, started with the same `min` and
`hasMin`, reach the same `min` and `hasMin` (and return the same integer, or
abort alike) after `updateStatsForAllRows` and after `updateStatsForRow` on any
row. -/
theorem wildcard_eq_explicit (m : marshalFuncs) (br : blockResult) (s1 s2 : statsMinProcessor)
    (hnames : (br.getColumns.map (fun c => c.name)).Nodup)
    (hstar : s1.sm.containsStar = true)
    (hexp : s2.sm = { fields := br.getColumns.map (fun c => c.name), containsStar := false })
    (hmin : s1.min = s2.min) (hhas : s1.hasMin = s2.hasMin) :
    (s1.updateStatsForAllRows m br).map observed = (s2.updateStatsForAllRows m br).map observed ∧
    ∀ rowIdx : Nat,
      (s1.updateStatsForRow m br rowIdx).map observed
        = (s2.updateStatsForRow m br rowIdx).map observed := by
  have h12 : s1 = s2.withSm s1.sm := by
    cases s1; cases s2; simp_all [statsMinProcessor.withSm]
  have hfields : s2.sm.fields.map br.getColumnByName = br.getColumns := by
    rw [hexp]; exact map_getColumnByName br hnames
  have hstar2 : s2.sm.containsStar = false := by rw [hexp]
  constructor
  · unfold statsMinProcessor.updateStatsForAllRows
    simp only [hstar, hstar2, if_true, Bool.false_eq_true, if_false]
    rw [foldlM_fields br (fun s c => s.updateStateForColumn m br c), hfields]
    conv_lhs => rw [h12, foldlM_map_comm (statsMinProcessor.withSm s1.sm) _
      (withSm_updateStateForColumn m s1.sm br)]
    cases br.getColumns.foldlM (fun s c => s.updateStateForColumn m br c) s2 with
    | error e => rfl
    | ok r => rfl
  · intro rowIdx
    unfold statsMinProcessor.updateStatsForRow
    simp only [hstar, hstar2, if_true, Bool.false_eq_true, if_false]
    rw [foldlM_fields br (fun s c => s.updateStateForValueAtRow m br rowIdx c), hfields]
    conv_lhs => rw [h12, foldlM_map_comm (statsMinProcessor.withSm s1.sm) _
      (withSm_updateStateForValueAtRow m s1.sm br rowIdx)]
    cases br.getColumns.foldlM (fun s c => s.updateStateForValueAtRow m br rowIdx c) s2 with
    | error e => rfl
    | ok r => rfl

/-! ## The per-row path against the whole-block path -/

theorem le_foldl_min_iff (u a : String) (xs : List String) :
    u ≤ xs.foldl min a ↔ u ≤ a ∧ ∀ x ∈ xs, u ≤ x := by
  induction xs generalizing a with
  | nil => simp
  | cons y ys ih =>
    simp only [List.foldl_cons, ih, le_min_iff, List.mem_cons, forall_eq_or_imp, and_assoc]

theorem foldl_min_eq_of_cover (a b : String) (xs ys : List String)
    (hsub : ∀ w, w = b ∨ w ∈ ys → w = a ∨ w ∈ xs)
    (hcov : ∀ v, v = a ∨ v ∈ xs → ∃ w, (w = b ∨ w ∈ ys) ∧ w ≤ v) :
    xs.foldl min a = ys.foldl min b := by
  have hx := foldl_min_le a xs
  have hy := foldl_min_le b ys
  have lex : ∀ v, v = a ∨ v ∈ xs → xs.foldl min a ≤ v := by
    rintro v (rfl | hv)
    · exact hx.1
    · exact hx.2 v hv
  have ley : ∀ w, w = b ∨ w ∈ ys → ys.foldl min b ≤ w := by
    rintro w (rfl | hw)
    · exact hy.1
    · exact hy.2 w hw
  apply le_antisymm
  · rw [le_foldl_min_iff]
    exact ⟨lex b (hsub b (Or.inl rfl)), fun w hw => lex w (hsub w (Or.inr hw))⟩
  · rw [le_foldl_min_iff]
    refine ⟨?_, fun v hv => ?_⟩
    · obtain ⟨w, hw, hwv⟩ := hcov a (Or.inl rfl)
      exact le_trans (ley w hw) hwv
    · obtain ⟨w, hw, hwv⟩ := hcov v (Or.inr hv)
      exact le_trans (ley w hw) hwv

theorem foldValues_eq_of_cover (s : statsMinProcessor) (xs ys : List String)
    (hsub : ∀ w ∈ ys, w ∈ xs) (hcov : ∀ v ∈ xs, ∃ w ∈ ys, w ≤ v) :
    foldValues s xs = foldValues s ys := by
  cases h : s.hasMin
  · cases xs with
    | nil =>
      cases ys with
      | nil => rfl
      | cons y ys => exact absurd (hsub y (List.mem_cons_self _ _)) (List.not_mem_nil _)
    | cons x xs =>
      cases ys with
      | nil =>
        obtain ⟨w, hw, _⟩ := hcov x (List.mem_cons_self _ _)
        exact absurd hw (List.not_mem_nil _)
      | cons y ys =>
        rw [foldValues_cons_of_not_hasMin s x xs h, foldValues_cons_of_not_hasMin s y ys h]
        have : xs.foldl min x = ys.foldl min y := by
          apply foldl_min_eq_of_cover
          · intro w hw
            exact List.mem_cons.1 (hsub w (List.mem_cons.2 hw))
          · intro v hv
            obtain ⟨w, hw, hwv⟩ := hcov v (List.mem_cons.2 hv)
            exact ⟨w, List.mem_cons.1 hw, hwv⟩
        rw [this]
  · rw [foldValues_of_hasMin s xs h, foldValues_of_hasMin s ys h]
    have : xs.foldl min s.min = ys.foldl min s.min := by
      apply foldl_min_eq_of_cover
      · rintro w (hw | hw)
        · exact Or.inl hw
        · exact Or.inr (hsub w hw)
      · rintro v (hv | hv)
        · exact ⟨v, Or.inl hv, le_refl v⟩
        · obtain ⟨w, hw, hwv⟩ := hcov v hv
          exact ⟨w, Or.inr hw, hwv⟩
    rw [this]

theorem foldValues_sm (s : statsMinProcessor) (xs : List String) :
    (foldValues s xs).sm = s.sm := by
  induction xs generalizing s with
  | nil => rfl
  | cons x xs ih =>
    show (foldValues (s.updateStateString x) xs).sm = s.sm
    rw [ih, updateStateString_sm]

theorem foldValues_flatten {α : Type} (h : α → List String) (l : List α) (s : statsMinProcessor) :
    l.foldl (fun s x => foldValues s (h x)) s = foldValues s (l.map h).flatten := by
  induction l generalizing s with
  | nil => rfl
  | cons x xs ih =>
    simp only [List.foldl_cons, List.map_cons, List.flatten_cons, foldValues_append]
    exact ih _

theorem foldlM_columns_ok {α : Type} (f : statsMinProcessor → α → Except panic statsMinProcessor)
    (h : α → List String) (l : List α)
    (hf : ∀ x ∈ l, ∀ s, f s x = .ok (foldValues s (h x))) (s : statsMinProcessor) :
    l.foldlM f s = .ok (foldValues s (l.map h).flatten) := by
  induction l generalizing s with
  | nil => rfl
  | cons x xs ih =>
    simp only [List.foldlM_cons, List.map_cons, List.flatten_cons, foldValues_append]
    rw [hf x (List.mem_cons_self _ _) s]
    exact ih (fun y hy => hf y (List.mem_cons_of_mem _ hy)) _

theorem index_of_lt {α : Type} (xs : List α) (i : Nat) (h : i < xs.length) :
    index xs i = .ok (xs.get ⟨i, h⟩) := by
  simp [index, List.getElem?_eq_getElem h]

theorem index_of_mem {α : Type} (xs : List α) (x : α) (h : x ∈ xs) :
    ∃ i, i < xs.length ∧ index xs i = .ok x := by
  obtain ⟨i, hi, hx⟩ := List.getElem_of_mem h
  refine ⟨i, hi, ?_⟩
  rw [index_of_lt xs i hi]
  simp [hx]

theorem minTimestampOf_mem (t0 : Int) (rest : List Int) :
    minTimestampOf t0 rest ∈ t0 :: rest := by
  unfold minTimestampOf
  induction rest generalizing t0 with
  | nil => simp
  | cons t ts ih =>
    simp only [List.foldl_cons]
    have h := ih (if t < t0 then t else t0)
    rcases List.mem_cons.1 h with h1 | h1
    · rw [h1]
      split
      · exact List.mem_cons_of_mem _ (List.mem_cons_self _ _)
      · exact List.mem_cons_self _ _
    · exact List.mem_cons_of_mem _ (List.mem_cons_of_mem _ h1)

theorem payloadAgrees_cover (render : Nat → String) (c : blockResultColumn) (br : blockResult)
    (h : payloadAgrees render c br) :
    (∀ i, i < br.timestamps.length →
      ∃ v, (index c.valuesPayload i).map render = .ok v ∧ render c.ch.minValue ≤ v) ∧
    ∃ i, i < br.timestamps.length ∧
      (index c.valuesPayload i).map render = .ok (render c.ch.minValue) := by
  obtain ⟨hlen, hmem, hle⟩ := h
  constructor
  · intro i hi
    have hi2 : i < c.valuesPayload.length := by rw [hlen]; exact hi
    refine ⟨render (c.valuesPayload.get ⟨i, hi2⟩), ?_, ?_⟩
    · rw [index_of_lt _ i hi2]; rfl
    · exact (lessString_eq_false_iff _ _).1 (hle _ (List.get_mem _ _ _))
  · obtain ⟨i, hi, hx⟩ := index_of_mem _ _ hmem
    refine ⟨i, by rw [← hlen]; exact hi, ?_⟩
    rw [hx]; rfl

theorem numeric_column_cover (render : Nat → String) (c : blockResultColumn) (br : blockResult)
    (rd : Nat → Except panic String) (hrd : ∀ i, rd i = (index c.valuesPayload i).map render)
    (h : payloadAgrees render c br) :
    (∀ i, i < br.timestamps.length →
      ∃ v, rd i = .ok v ∧ ∃ w ∈ [render c.ch.minValue], w ≤ v) ∧
    (∀ w ∈ [render c.ch.minValue], ∃ i, i < br.timestamps.length ∧ rd i = .ok w) := by
  obtain ⟨h1, i0, hi0, h2⟩ := payloadAgrees_cover render c br h
  constructor
  · intro i hi
    obtain ⟨v, hv, hle⟩ := h1 i hi
    exact ⟨v, by rw [hrd, hv], _, List.mem_singleton.2 rfl, hle⟩
  · intro w hw
    rw [List.mem_singleton.1 hw]
    exact ⟨i0, hi0, by rw [hrd, h2]⟩

theorem column_cover (m : marshalFuncs) (br : blockResult) (c : blockResultColumn)
    (hn : br.timestamps ≠ []) (hpa : c.pathsAgree m br) :
    (∀ s : statsMinProcessor,
      s.updateStateForColumn m br c = .ok (foldValues s (c.foldedValues m br))) ∧
    (∀ i, i < br.timestamps.length →
      ∃ v, c.getValueAtRow m br i = .ok v ∧ ∃ w ∈ c.foldedValues m br, w ≤ v) ∧
    (∀ w ∈ c.foldedValues m br, ∃ i, i < br.timestamps.length ∧ c.getValueAtRow m br i = .ok w) := by
  have hlen : br.timestamps.length ≠ 0 := fun h => hn (List.length_eq_zero.1 h)
  have hpos : 0 < br.timestamps.length := Nat.pos_of_ne_zero hlen
  unfold blockResultColumn.pathsAgree at hpa
  cases hc : c.isConst
  · cases ht : c.isTime
    · simp only [hc, ht, Bool.false_eq_true, if_false] at hpa
      cases hv : c.valueType <;> simp only [hv] at hpa
      case valueTypeString =>
        have hf : c.foldedValues m br = c.valuesEncoded := by
          simp [blockResultColumn.foldedValues, hc, ht, hv]
        have hr : ∀ i, c.getValueAtRow m br i = index c.valuesEncoded i := by
          intro i; simp [blockResultColumn.getValueAtRow, hc, ht, hv]
        rw [hf]
        refine ⟨fun s => ?_, fun i hi => ?_, fun w hw => ?_⟩
        · simp [statsMinProcessor.updateStateForColumn, hlen, hc, ht, hv,
            blockResultColumn.getValuesEncoded, foldValues]
        · have hi2 : i < c.valuesEncoded.length := by rw [hpa]; exact hi
          exact ⟨_, by rw [hr, index_of_lt _ i hi2], _, List.get_mem _ _ _, le_refl _⟩
        · obtain ⟨i, hi, hx⟩ := index_of_mem _ _ hw
          exact ⟨i, by rw [← hpa]; exact hi, by rw [hr, hx]⟩
      case valueTypeDict =>
        obtain ⟨hpl, hidx, hused⟩ := hpa
        have hf : c.foldedValues m br = c.dictValues := by
          simp [blockResultColumn.foldedValues, hc, ht, hv]
        have hr : ∀ i, c.getValueAtRow m br i
            = (index c.valuesPayload i).bind (index c.dictValues) := by
          intro i; simp [blockResultColumn.getValueAtRow, hc, ht, hv]
        rw [hf]
        refine ⟨fun s => ?_, fun i hi => ?_, fun w hw => ?_⟩
        · simp [statsMinProcessor.updateStateForColumn, hlen, hc, ht, hv, foldValues]
        · have hi2 : i < c.valuesPayload.length := by rw [hpl]; exact hi
          have hp : c.valuesPayload.get ⟨i, hi2⟩ < c.dictValues.length :=
            hidx _ (List.get_mem _ _ _)
          refine ⟨c.dictValues.get ⟨_, hp⟩, ?_, _, List.get_mem _ _ _, le_refl _⟩
          rw [hr, index_of_lt _ i hi2]
          exact index_of_lt _ _ hp
        · obtain ⟨p, hp, hd⟩ := hused w hw
          obtain ⟨i, hi, hx⟩ := index_of_mem _ _ hp
          refine ⟨i, by rw [← hpl]; exact hi, ?_⟩
          rw [hr, hx]
          show index c.dictValues p = .ok w
          unfold index
          rw [hd]
      all_goals
        refine ⟨fun s => ?_, ?_⟩
        · simp [statsMinProcessor.updateStateForColumn, hlen, hc, ht, hv, foldValues,
            blockResultColumn.foldedValues, statsMinProcessor.updateStateBytes]
        · have hcov := numeric_column_cover _ c br (fun i => c.getValueAtRow m br i)
            (fun i => by simp [blockResultColumn.getValueAtRow, hc, ht, hv]) hpa
          simp only [blockResultColumn.foldedValues, hc, ht, hv, Bool.false_eq_true, if_false]
          exact hcov
    · simp only [hc, ht, Bool.false_eq_true, if_false, if_true] at hpa
      have hf : c.foldedValues m br
          = [m.marshalTimestampRFC3339NanoString (minTimestamp br.timestamps)] := by
        simp [blockResultColumn.foldedValues, ht]
      have hr : ∀ i, c.getValueAtRow m br i
          = (index br.timestamps i).map m.marshalTimestampRFC3339NanoString := by
        intro i; simp [blockResultColumn.getValueAtRow, hc, ht]
      rw [hf]
      refine ⟨fun s => ?_, fun i hi => ?_, fun w hw => ?_⟩
      · cases hts : br.timestamps with
        | nil => exact absurd hts hn
        | cons t0 rest =>
          simp [statsMinProcessor.updateStateForColumn, hts, ht, foldValues, minTimestamp,
            statsMinProcessor.updateStateBytes]
      · refine ⟨m.marshalTimestampRFC3339NanoString (br.timestamps.get ⟨i, hi⟩), ?_, _,
          List.mem_singleton.2 rfl, ?_⟩
        · rw [hr, index_of_lt _ i hi]; rfl
        · exact (lessString_eq_false_iff _ _).1 (hpa _ (List.get_mem _ _ _))
      · rw [List.mem_singleton.1 hw]
        have hmem : minTimestamp br.timestamps ∈ br.timestamps := by
          cases hts : br.timestamps with
          | nil => exact absurd hts hn
          | cons t0 rest => exact minTimestampOf_mem t0 rest
        obtain ⟨i, hi, hx⟩ := index_of_mem _ _ hmem
        exact ⟨i, hi, by rw [hr, hx]; rfl⟩
  · simp only [hc, if_true] at hpa
    obtain ⟨ht, hne⟩ := hpa
    cases hve : c.valuesEncoded with
    | nil => exact absurd hve hne
    | cons v rest =>
      have hf : c.foldedValues m br = [v] := by
        simp [blockResultColumn.foldedValues, hc, ht, hve]
      have hr : ∀ i, c.getValueAtRow m br i = .ok v := by
        intro i; simp [blockResultColumn.getValueAtRow, hc, hve, index]
      rw [hf]
      refine ⟨fun s => ?_, fun i _ => ?_, fun w hw => ?_⟩
      · simp [statsMinProcessor.updateStateForColumn, hlen, hc, ht, hve, foldValues]
      · exact ⟨v, hr i, v, List.mem_singleton.2 rfl, le_refl v⟩
      · rw [List.mem_singleton.1 hw]
        exact ⟨0, hpos, hr 0⟩

theorem foldlM_values_ok {α : Type} (f : statsMinProcessor → α → Except panic statsMinProcessor)
    (h : α → String) (l : List α)
    (hf : ∀ x ∈ l, ∀ s, f s x = .ok (s.updateStateString (h x))) (s : statsMinProcessor) :
    l.foldlM f s = .ok (foldValues s (l.map h)) := by
  induction l generalizing s with
  | nil => rfl
  | cons x xs ih =>
    simp only [List.foldlM_cons, List.map_cons]
    rw [hf x (List.mem_cons_self _ _) s]
    exact ih (fun y hy => hf y (List.mem_cons_of_mem _ hy)) _

theorem foldlM_unchanged {α : Type} (f : statsMinProcessor → α → Except panic statsMinProcessor)
    (l : List α) (hf : ∀ x ∈ l, ∀ s, f s x = .ok s) (s : statsMinProcessor) :
    l.foldlM f s = .ok s := by
  induction l generalizing s with
  | nil => rfl
  | cons x xs ih =>
    simp only [List.foldlM_cons]
    rw [hf x (List.mem_cons_self _ _) s]
    exact ih (fun y hy => hf y (List.mem_cons_of_mem _ hy)) _

theorem updateStatsForRow_ok (m : marshalFuncs) (br : blockResult) (s : statsMinProcessor)
    (i : Nat) (hrow : ∀ c ∈ selectedColumns s.sm br, ∃ v, c.getValueAtRow m br i = .ok v) :
    (s.updateStatsForRow m br i).map Prod.fst
      = .ok (foldValues s ((selectedColumns s.sm br).map (fun c => rowValue m br c i))) := by
  have step : ∀ c ∈ selectedColumns s.sm br, ∀ r : statsMinProcessor,
      r.updateStateForValueAtRow m br i c = .ok (r.updateStateString (rowValue m br c i)) := by
    intro c hc r
    obtain ⟨v, hv⟩ := hrow c hc
    simp [statsMinProcessor.updateStateForValueAtRow, rowValue, hv, Except.map]
  have hfold := foldlM_values_ok (fun r c => r.updateStateForValueAtRow m br i c)
    (fun c => rowValue m br c i) (selectedColumns s.sm br) step s
  unfold statsMinProcessor.updateStatsForRow
  unfold selectedColumns at hfold
  cases hstar : s.sm.containsStar
  · simp only [hstar, Bool.false_eq_true, if_false] at hfold ⊢
    rw [foldlM_fields br (fun r c => r.updateStateForValueAtRow m br i c), hfold]
    simp [selectedColumns, hstar, Except.map]
  · simp only [hstar, if_true] at hfold ⊢
    rw [hfold]
    simp [selectedColumns, hstar, Except.map]

theorem foldlM_rows_ok (m : marshalFuncs) (br : blockResult) (sm0 : statsMin) (rows : List Nat)
    (hrows : ∀ i ∈ rows, ∀ c ∈ selectedColumns sm0 br, ∃ v, c.getValueAtRow m br i = .ok v)
    (s : statsMinProcessor) (hs : s.sm = sm0) :
    rows.foldlM (fun r i => (r.updateStatsForRow m br i).map Prod.fst) s
      = .ok (foldValues s
          (rows.map (fun i => (selectedColumns sm0 br).map (fun c => rowValue m br c i))).flatten) := by
  induction rows generalizing s with
  | nil => rfl
  | cons i rest ih =>
    simp only [List.foldlM_cons, List.map_cons, List.flatten_cons, foldValues_append]
    rw [updateStatsForRow_ok m br s i (by rw [hs]; exact hrows i (List.mem_cons_self _ _)), hs]
    exact ih (fun j hj => hrows j (List.mem_cons_of_mem _ hj)) _
      (by rw [foldValues_sm, hs])

theorem updateStatsForAllRows_ok (m : marshalFuncs) (br : blockResult) (s : statsMinProcessor)
    (h : blockResultColumn → List String)
    (hcols : ∀ c ∈ selectedColumns s.sm br, ∀ r : statsMinProcessor,
      r.updateStateForColumn m br c = .ok (foldValues r (h c))) :
    (s.updateStatsForAllRows m br).map Prod.fst
      = .ok (foldValues s ((selectedColumns s.sm br).map h).flatten) := by
  have hfold := foldlM_columns_ok (fun r c => r.updateStateForColumn m br c) h
    (selectedColumns s.sm br) hcols s
  unfold statsMinProcessor.updateStatsForAllRows
  unfold selectedColumns at hfold
  cases hstar : s.sm.containsStar
  · simp only [hstar, Bool.false_eq_true, if_false] at hfold ⊢
    rw [foldlM_fields br (fun r c => r.updateStateForColumn m br c), hfold]
    simp [selectedColumns, hstar, Except.map]
  · simp only [hstar, if_true] at hfold ⊢
    rw [hfold]
    simp [selectedColumns, hstar, Except.map]

/-- C2, refuted as stated: on the two-row block whose `uint8` column holds 10
and 2, with the cached minimum 2 equal to the numeric minimum of the rows, the
per-row path finalizes to "10" (the lexical minimum of "10" and "2") and the
whole-block path finalizes to "2". -/
theorem paths_differ_on_uint_column :
    (∀ c ∈ uintBlock.getColumns, c.cachedMinIsRowMin) ∧
    ((statsMin.newStatsProcessor ⟨["n"], false⟩).1.updateStatsForEveryRow sampleMarshalFuncs
        uintBlock).map statsMinProcessor.finalizeStats = .ok "10" ∧
    ((statsMin.newStatsProcessor ⟨["n"], false⟩).1.updateStatsForAllRows sampleMarshalFuncs
        uintBlock).map (fun r => r.1.finalizeStats) = .ok "2" := by
  refine ⟨?_, by decide, by decide⟩
  simp [uintBlock, blockResult.getColumns, blockResultColumn.cachedMinIsRowMin]

/-- C2, amended: when, on a non-empty block, every selected column satisfies
`pathsAgree` (constant and string columns are stored row for row, every
dictionary entry is the value of some row, and for the time column and the
numeric columns the text of the numeric minimum is lexically no greater than
the text of any row), calling `updateStatsForRow` for every row in row order
and calling `updateStatsForAllRows` once reach the same state from the same
state, hence the same `finalizeStats` result. -/
theorem paths_agree (m : marshalFuncs) (br : blockResult) (smp : statsMinProcessor)
    (hcols : br.timestamps ≠ [] → ∀ c ∈ selectedColumns smp.sm br, c.pathsAgree m br) :
    ∃ s : statsMinProcessor,
      smp.updateStatsForEveryRow m br = .ok s ∧
      (smp.updateStatsForAllRows m br).map Prod.fst = .ok s ∧
      (smp.updateStatsForEveryRow m br).map statsMinProcessor.finalizeStats
        = (smp.updateStatsForAllRows m br).map (fun r => r.1.finalizeStats) := by
  suffices h : ∃ s : statsMinProcessor, smp.updateStatsForEveryRow m br = .ok s ∧
      (smp.updateStatsForAllRows m br).map Prod.fst = .ok s by
    obtain ⟨s, h1, h2⟩ := h
    refine ⟨s, h1, h2, ?_⟩
    rw [h1]
    cases hr : smp.updateStatsForAllRows m br with
    | error e => rw [hr] at h2; cases h2
    | ok r =>
      rw [hr] at h2
      have : r.1 = s := by injection h2
      simp [Except.map, this]
  by_cases hn : br.timestamps = []
  · refine ⟨smp, ?_, ?_⟩
    · simp [statsMinProcessor.updateStatsForEveryRow, hn]
      rfl
    · have := updateStatsForAllRows_ok m br smp (fun _ => [])
        (fun c _ r => by simp [statsMinProcessor.updateStateForColumn, hn, foldValues])
      rw [this]
      congr 1
      have hnil : ∀ l : List blockResultColumn,
          (l.map (fun _ => ([] : List String))).flatten = [] := by
        intro l; induction l with
        | nil => rfl
        | cons _ _ ih => simp
      rw [hnil]
      rfl
  · have hpa := hcols hn
    have hcov := fun c hc => column_cover m br c hn (hpa c hc)
    refine ⟨_, ?_, updateStatsForAllRows_ok m br smp (fun c => c.foldedValues m br)
      (fun c hc => (hcov c hc).1)⟩
    unfold statsMinProcessor.updateStatsForEveryRow
    rw [foldlM_rows_ok m br smp.sm (List.range br.timestamps.length) ?_ smp rfl]
    · congr 1
      apply foldValues_eq_of_cover
      · intro w hw
        simp only [List.mem_flatten, List.mem_map, exists_exists_and_eq_and] at hw ⊢
        obtain ⟨c, hc, hwc⟩ := hw
        obtain ⟨i, hi, hv⟩ := (hcov c hc).2.2 w hwc
        refine ⟨i, List.mem_range.2 hi, c, hc, ?_⟩
        simp [rowValue, hv]
      · intro v hv
        simp only [List.mem_flatten, List.mem_map, exists_exists_and_eq_and] at hv ⊢
        obtain ⟨i, hi, c, hc, hvc⟩ := hv
        obtain ⟨u, hu, w, hw, hle⟩ := (hcov c hc).2.1 i (List.mem_range.1 hi)
        refine ⟨w, ⟨c, hc, hw⟩, ?_⟩
        rw [← hvc]
        simpa [rowValue, hu] using hle
    · intro i hi c hc
      obtain ⟨u, hu, _⟩ := (hcov c hc).2.1 i (List.mem_range.1 hi)
      exact ⟨u, hu⟩

/-- Witness of the amended C2 on `mixedBlock` with the wildcard selector: both
paths reach the same state, which finalizes to "a". -/
theorem paths_agree_witness :
    (∃ s : statsMinProcessor,
      (statsMinProcessor.mk ⟨["*"], true⟩ "" false).updateStatsForEveryRow sampleMarshalFuncs
          mixedBlock = .ok s ∧
      ((statsMinProcessor.mk ⟨["*"], true⟩ "" false).updateStatsForAllRows sampleMarshalFuncs
          mixedBlock).map Prod.fst = .ok s ∧
      ((statsMinProcessor.mk ⟨["*"], true⟩ "" false).updateStatsForEveryRow sampleMarshalFuncs
          mixedBlock).map statsMinProcessor.finalizeStats
        = ((statsMinProcessor.mk ⟨["*"], true⟩ "" false).updateStatsForAllRows sampleMarshalFuncs
          mixedBlock).map (fun r => r.1.finalizeStats)) ∧
    ((statsMinProcessor.mk ⟨["*"], true⟩ "" false).updateStatsForAllRows sampleMarshalFuncs
        mixedBlock).map (fun r => r.1.finalizeStats) = .ok "a" :=
  ⟨paths_agree sampleMarshalFuncs mixedBlock (statsMinProcessor.mk ⟨["*"], true⟩ "" false)
    (fun _ c hc => by
      simp only [selectedColumns, mixedBlock, blockResult.getColumns, if_true, List.mem_cons,
        List.mem_singleton, List.not_mem_nil, or_false] at hc
      rcases hc with rfl | rfl | rfl
      · simp [blockResultColumn.pathsAgree]
      · simp [blockResultColumn.pathsAgree]
        rfl
      · simp [blockResultColumn.pathsAgree]
        decide),
   by decide⟩

/-- Witness of C10 on `mixedBlock`: the wildcard against the fields "x", "s",
"d". -/
theorem wildcard_eq_explicit_witness :
    ((statsMinProcessor.mk ⟨["*"], true⟩ "" false).updateStatsForAllRows sampleMarshalFuncs
        mixedBlock).map observed
      = ((statsMinProcessor.mk ⟨["x", "s", "d"], false⟩ "" false).updateStatsForAllRows
        sampleMarshalFuncs mixedBlock).map observed ∧
    ∀ rowIdx : Nat,
      ((statsMinProcessor.mk ⟨["*"], true⟩ "" false).updateStatsForRow sampleMarshalFuncs
          mixedBlock rowIdx).map observed
        = ((statsMinProcessor.mk ⟨["x", "s", "d"], false⟩ "" false).updateStatsForRow
          sampleMarshalFuncs mixedBlock rowIdx).map observed :=
  wildcard_eq_explicit sampleMarshalFuncs mixedBlock (statsMinProcessor.mk ⟨["*"], true⟩ "" false)
    (statsMinProcessor.mk ⟨["x", "s", "d"], false⟩ "" false) (by decide) rfl rfl rfl rfl

/-! ## The cases of `updateStateForColumn` and the returned sizes -/

theorem minTimestampOf_le (t0 : Int) (rest : List Int) :
    ∀ t ∈ t0 :: rest, minTimestampOf t0 rest ≤ t := by
  unfold minTimestampOf
  induction rest generalizing t0 with
  | nil => simp
  | cons u us ih =>
    intro t ht
    simp only [List.foldl_cons]
    have h0 := ih (if u < t0 then u else t0)
    have hhead := h0 _ (List.mem_cons_self _ _)
    rcases List.mem_cons.1 ht with h | h
    · rw [h]
      refine le_trans hhead ?_
      split <;> omega
    · rcases List.mem_cons.1 h with h | h
      · rw [h]
        refine le_trans hhead ?_
        split <;> omega
      · exact h0 t (List.mem_cons_of_mem _ h)

theorem foldValues_hasMin_of_ne_nil (s : statsMinProcessor) (xs : List String) (h : xs ≠ []) :
    (foldValues s xs).hasMin = true := by
  cases xs with
  | nil => exact absurd rfl h
  | cons x xs =>
    have h1 : foldValues s (x :: xs) = foldValues (s.updateStateString x) xs := rfl
    rw [h1, foldValues_of_hasMin _ _ (updateStateString_hasMin s x)]
    exact updateStateString_hasMin s x

theorem foldValues_hasMin_of_hasMin (s : statsMinProcessor) (xs : List String)
    (h : s.hasMin = true) : (foldValues s xs).hasMin = true := by
  rw [foldValues_of_hasMin s xs h]; exact h

theorem updateStateForColumn_of_empty (m : marshalFuncs) (br : blockResult)
    (c : blockResultColumn) (s : statsMinProcessor) (hn : br.timestamps = []) :
    s.updateStateForColumn m br c = .ok s := by
  simp [statsMinProcessor.updateStateForColumn, hn]

theorem updateStateForColumn_eq_foldedValues (m : marshalFuncs) (br : blockResult)
    (c : blockResultColumn) (hn : br.timestamps ≠ []) (hc : c.foldsWithoutPanic)
    (s : statsMinProcessor) :
    s.updateStateForColumn m br c = .ok (foldValues s (c.foldedValues m br)) := by
  have hlen : br.timestamps.length ≠ 0 := fun h => hn (List.length_eq_zero.1 h)
  cases ht : c.isTime
  · cases hk : c.isConst
    · have hv : c.valueType.isKnown = true := by
        rcases hc with h | h | h
        · rw [ht] at h; cases h
        · rw [hk] at h; cases h.1
        · exact h.2
      cases hvt : c.valueType
      case valueTypeUnknown tag =>
        rw [hvt] at hv
        simp [valueType.isKnown] at hv
      all_goals
        simp [statsMinProcessor.updateStateForColumn, hlen, ht, hk, hvt, foldValues,
          blockResultColumn.foldedValues, statsMinProcessor.updateStateBytes,
          blockResultColumn.getValuesEncoded]
    · have hne : c.valuesEncoded ≠ [] := by
        rcases hc with h | h | h
        · rw [ht] at h; cases h
        · exact h.2
        · rw [hk] at h; cases h.1
      cases hve : c.valuesEncoded with
      | nil => exact absurd hve hne
      | cons v rest =>
        simp [statsMinProcessor.updateStateForColumn, hlen, ht, hk, hve, foldValues,
          blockResultColumn.foldedValues]
  · cases hts : br.timestamps with
    | nil => exact absurd hts hn
    | cons t0 rest =>
      simp [statsMinProcessor.updateStateForColumn, hts, ht, foldValues, minTimestamp,
        blockResultColumn.foldedValues, statsMinProcessor.updateStateBytes]

/-- C14: on a block with zero rows `updateStatsForAllRows` returns the state as
it was, with the returned integer 0, whatever the selector and whatever the
encodings of the columns. -/
theorem updateStatsForAllRows_empty_block (m : marshalFuncs) (smp : statsMinProcessor)
    (br : blockResult) (hn : br.timestamps.length = 0) :
    smp.updateStatsForAllRows m br = .ok (smp, 0) := by
  have hnil : br.timestamps = [] := List.length_eq_zero.1 hn
  unfold statsMinProcessor.updateStatsForAllRows
  have h1 := foldlM_unchanged (fun s c => s.updateStateForColumn m br c) br.getColumns
    (fun c _ s => updateStateForColumn_of_empty m br c s hnil) smp
  have h2 := foldlM_unchanged
    (fun s field => s.updateStateForColumn m br (br.getColumnByName field)) smp.sm.fields
    (fun field _ s => updateStateForColumn_of_empty m br _ s hnil) smp
  simp only [h1, h2, ite_self]
  simp [Except.map]

/-- Witness of C14 on `emptyBlock`, whose columns would abort on a block with
rows. -/
theorem updateStatsForAllRows_empty_block_witness :
    (statsMinProcessor.mk ⟨["*"], true⟩ "q" true).updateStatsForAllRows sampleMarshalFuncs
      emptyBlock = .ok (statsMinProcessor.mk ⟨["*"], true⟩ "q" true, 0) :=
  updateStatsForAllRows_empty_block sampleMarshalFuncs (statsMinProcessor.mk ⟨["*"], true⟩ "q" true)
    emptyBlock rfl

/-- C15: on a non-empty block, for a constant column other than the time column
that stores the value `v`, `updateStateForColumn` leaves the state that
`updateStateString v` leaves; on the one-row block whose field `x` is the
constant "z", a fresh processor for `x` finalizes to "z" after
`updateStatsForAllRows`. -/
theorem updateStateForColumn_const (m : marshalFuncs) (br : blockResult) (c : blockResultColumn)
    (s : statsMinProcessor) (v : String) (rest : List String) (hn : br.timestamps ≠ [])
    (ht : c.isTime = false) (hc : c.isConst = true) (hv : c.valuesEncoded = v :: rest) :
    s.updateStateForColumn m br c = .ok (s.updateStateString v) ∧
    ((statsMin.newStatsProcessor ⟨["x"], false⟩).1.updateStatsForAllRows m constBlock).map
      (fun r => r.1.finalizeStats) = .ok "z" := by
  have hlen : br.timestamps.length ≠ 0 := fun h => hn (List.length_eq_zero.1 h)
  refine ⟨?_, rfl⟩
  simp [statsMinProcessor.updateStateForColumn, hlen, ht, hc, hv]

/-- Witness of C15 on the constant column of `mixedBlock`. -/
theorem updateStateForColumn_const_witness :
    (statsMinProcessor.mk ⟨["x"], false⟩ "" false).updateStateForColumn sampleMarshalFuncs mixedBlock
        (mixedBlock.getColumnByName "x")
      = .ok ((statsMinProcessor.mk ⟨["x"], false⟩ "" false).updateStateString "z") :=
  (updateStateForColumn_const sampleMarshalFuncs mixedBlock (mixedBlock.getColumnByName "x")
    (statsMinProcessor.mk ⟨["x"], false⟩ "" false) "z" [] (by decide) rfl rfl rfl).1

/-- C16: on a non-empty block, the timestamp `updateStateForColumn` selects for the
time column is one of the timestamps of the block and is less than or equal to
every one of them, and the state afterwards is the state after folding the
one value that renders this timestamp. -/
theorem updateStateForColumn_time (m : marshalFuncs) (br : blockResult) (c : blockResultColumn)
    (s : statsMinProcessor) (hn : br.timestamps ≠ []) (ht : c.isTime = true) :
    minTimestamp br.timestamps ∈ br.timestamps ∧
    (∀ t ∈ br.timestamps, minTimestamp br.timestamps ≤ t) ∧
    s.updateStateForColumn m br c
      = .ok (s.updateStateString
          (m.marshalTimestampRFC3339NanoString (minTimestamp br.timestamps))) := by
  cases hts : br.timestamps with
  | nil => exact absurd hts hn
  | cons t0 rest =>
    refine ⟨minTimestampOf_mem t0 rest, minTimestampOf_le t0 rest, ?_⟩
    simp [statsMinProcessor.updateStateForColumn, hts, ht, minTimestamp,
      statsMinProcessor.updateStateBytes]

/-- Witness of C16 on the timestamps 40, 10, 30, 20 of `mixedBlock`. -/
theorem updateStateForColumn_time_witness :
    minTimestamp mixedBlock.timestamps = 10 ∧
    (statsMinProcessor.mk ⟨["_time"], false⟩ "" false).updateStateForColumn sampleMarshalFuncs
        mixedBlock timeColumn
      = .ok ((statsMinProcessor.mk ⟨["_time"], false⟩ "" false).updateStateString "t10") :=
  ⟨by decide,
   (updateStateForColumn_time sampleMarshalFuncs mixedBlock timeColumn
    (statsMinProcessor.mk ⟨["_time"], false⟩ "" false) (by decide) rfl).2.2⟩

theorem ok_of_map_fst_ok {α β : Type} (e : Except panic (α × β)) (a : α)
    (h : e.map Prod.fst = .ok a) : ∃ r, e = .ok r ∧ r.1 = a := by
  cases e with
  | error err => cases h
  | ok r =>
    refine ⟨r, rfl, ?_⟩
    simpa [Except.map] using h

theorem updateStatsForAllRows_returns (m : marshalFuncs) (smp : statsMinProcessor)
    (br : blockResult) (hcols : ∀ c ∈ selectedColumns smp.sm br, c.foldsWithoutPanic) :
    ∃ r, smp.updateStatsForAllRows m br = .ok r := by
  by_cases hn : br.timestamps = []
  · have h := updateStatsForAllRows_ok m br smp (fun _ => [])
      (fun c _ r => updateStateForColumn_of_empty m br c r hn)
    obtain ⟨r, hr, _⟩ := ok_of_map_fst_ok _ _ h
    exact ⟨r, hr⟩
  · have h := updateStatsForAllRows_ok m br smp (fun c => c.foldedValues m br)
      (fun c hc r => updateStateForColumn_eq_foldedValues m br c hn (hcols c hc) r)
    obtain ⟨r, hr, _⟩ := ok_of_map_fst_ok _ _ h
    exact ⟨r, hr⟩

/-- C12, the code at the failing input: a fresh processor for the field `x`, on
row 0 of the one-row block whose `x` is the constant "z", ends with
`min = "z"` and returns -1, although `len(min)` grew by 1; in general
`updateStatsForRow` returns `len(min)` before the call minus `len(min)` after
the call. -/
theorem updateStatsForRow_returns_negated_delta :
    (statsMin.newStatsProcessor ⟨["x"], false⟩).1.updateStatsForRow sampleMarshalFuncs constBlock 0
      = .ok (statsMinProcessor.mk ⟨["x"], false⟩ "z" true, -1) ∧
    len "z" - len "" = 1 ∧
    ∀ (m : marshalFuncs) (smp : statsMinProcessor) (br : blockResult) (rowIdx : Nat)
      (r : statsMinProcessor × Int),
      smp.updateStatsForRow m br rowIdx = .ok r → r.2 = len smp.min - len r.1.min := by
  refine ⟨by decide, by decide, ?_⟩
  intro m smp br rowIdx r hr
  unfold statsMinProcessor.updateStatsForRow at hr
  simp only at hr
  revert hr
  generalize (if smp.sm.containsStar = true then _ else _) = e
  intro hr
  cases e with
  | error err => cases hr
  | ok s =>
    simp only [Except.map, Except.ok.injEq] at hr
    rw [← hr]

/-- C17: whenever `updateStatsForAllRows` returns, the returned integer is
`len(min)` after the call minus `len(min)` before the call; and it returns
whenever no selected column aborts. -/
theorem updateStatsForAllRows_returns_delta (m : marshalFuncs) (smp : statsMinProcessor)
    (br : blockResult) :
    (∀ r : statsMinProcessor × Int,
      smp.updateStatsForAllRows m br = .ok r → r.2 = len r.1.min - len smp.min) ∧
    ((∀ c ∈ selectedColumns smp.sm br, c.foldsWithoutPanic) →
      ∃ r : statsMinProcessor × Int,
        smp.updateStatsForAllRows m br = .ok r ∧ r.2 = len r.1.min - len smp.min) := by
  have key : ∀ r : statsMinProcessor × Int,
      smp.updateStatsForAllRows m br = .ok r → r.2 = len r.1.min - len smp.min := by
    intro r hr
    unfold statsMinProcessor.updateStatsForAllRows at hr
    simp only at hr
    revert hr
    generalize (if smp.sm.containsStar = true then _ else _) = e
    intro hr
    cases e with
    | error err => cases hr
    | ok s =>
      simp only [Except.map, Except.ok.injEq] at hr
      rw [← hr]
  refine ⟨key, fun hcols => ?_⟩
  obtain ⟨r, hr⟩ := updateStatsForAllRows_returns m smp br hcols
  exact ⟨r, hr, key r hr⟩

/-- C13: on a non-empty block, for a well-formed column that is neither the time
column nor constant, `updateStateForColumn` aborts exactly when the value type
is outside the enumerated set, and then with the BUG panic for that type; for a
value type inside the set it returns with `hasMin = true`. -/
theorem updateStateForColumn_panics_iff_unknown (m : marshalFuncs) (br : blockResult)
    (c : blockResultColumn) (s : statsMinProcessor) (hn : br.timestamps ≠ [])
    (ht : c.isTime = false) (hc : c.isConst = false) (hwf : c.wellFormed br) :
    (∀ e : panic, s.updateStateForColumn m br c = .error e ↔
      ∃ tag, c.valueType = valueType.valueTypeUnknown tag ∧ e = panic.bugUnknownValueType tag) ∧
    (c.valueType.isKnown = true →
      ∃ r : statsMinProcessor, s.updateStateForColumn m br c = .ok r ∧ r.hasMin = true) := by
  have hlen : br.timestamps.length ≠ 0 := fun h => hn (List.length_eq_zero.1 h)
  cases hvt : c.valueType with
  | valueTypeUnknown tag =>
    refine ⟨fun e => ?_, fun h => by simp [valueType.isKnown] at h⟩
    simp [statsMinProcessor.updateStateForColumn, hlen, ht, hc, hvt, eq_comm]
  | valueTypeString =>
    have hne : c.valuesEncoded ≠ [] := by
      intro h
      simp [blockResultColumn.wellFormed, ht, hc, hvt, h] at hwf
      exact hlen hwf.symm
    have hr := updateStateForColumn_eq_foldedValues m br c hn
      (Or.inr (Or.inr ⟨hc, by rw [hvt]; rfl⟩)) s
    refine ⟨fun e => ?_, fun _ => ⟨_, hr, ?_⟩⟩
    · rw [hr]; simp
    · apply foldValues_hasMin_of_ne_nil
      simpa [blockResultColumn.foldedValues, ht, hc, hvt] using hne
  | valueTypeDict =>
    have hne : c.dictValues ≠ [] := by
      intro h
      simp only [blockResultColumn.wellFormed, ht, hc, hvt, Bool.false_eq_true, if_false] at hwf
      cases hp : c.valuesPayload with
      | nil => rw [hp] at hwf; exact hlen hwf.1.symm
      | cons p ps =>
        have := hwf.2 p (by rw [hp]; exact List.mem_cons_self _ _)
        rw [h] at this
        exact Nat.not_lt_zero _ this
    have hr := updateStateForColumn_eq_foldedValues m br c hn
      (Or.inr (Or.inr ⟨hc, by rw [hvt]; rfl⟩)) s
    refine ⟨fun e => ?_, fun _ => ⟨_, hr, ?_⟩⟩
    · rw [hr]; simp
    · apply foldValues_hasMin_of_ne_nil
      simpa [blockResultColumn.foldedValues, ht, hc, hvt] using hne
  | _ =>
    have hr := updateStateForColumn_eq_foldedValues m br c hn
      (Or.inr (Or.inr ⟨hc, by rw [hvt]; rfl⟩)) s
    refine ⟨fun e => ?_, fun _ => ⟨_, hr, ?_⟩⟩
    · rw [hr]; simp
    · apply foldValues_hasMin_of_ne_nil
      simp [blockResultColumn.foldedValues, ht, hc, hvt]

/-- Witness of C13 on the string column of `mixedBlock`. -/
theorem updateStateForColumn_panics_iff_unknown_witness :
    ∃ r : statsMinProcessor,
      (statsMinProcessor.mk ⟨["s"], false⟩ "" false).updateStateForColumn sampleMarshalFuncs
        mixedBlock (mixedBlock.getColumnByName "s") = .ok r ∧ r.hasMin = true :=
  (updateStateForColumn_panics_iff_unknown sampleMarshalFuncs mixedBlock
    (mixedBlock.getColumnByName "s") (statsMinProcessor.mk ⟨["s"], false⟩ "" false)
    (by decide) rfl rfl (by simp [blockResultColumn.wellFormed, blockResult.getColumnByName,
      blockResult.getColumns, mixedBlock])).2 rfl

/-! ## Restricted path equivalence and dictionary columns -/

theorem mem_allRowValues (m : marshalFuncs) (sm : statsMin) (br : blockResult) (v : String) :
    v ∈ allRowValues m sm br ↔
      ∃ i, i < br.timestamps.length ∧ ∃ c ∈ selectedColumns sm br, rowValue m br c i = v := by
  simp only [allRowValues, List.mem_flatten, List.mem_map, exists_exists_and_eq_and,
    List.mem_range]

theorem updateStatsForEveryRow_eq (m : marshalFuncs) (br : blockResult) (smp : statsMinProcessor)
    (hrows : ∀ i, i < br.timestamps.length → ∀ c ∈ selectedColumns smp.sm br,
      ∃ v, c.getValueAtRow m br i = .ok v) :
    smp.updateStatsForEveryRow m br = .ok (foldValues smp (allRowValues m smp.sm br)) := by
  unfold statsMinProcessor.updateStatsForEveryRow allRowValues
  exact foldlM_rows_ok m br smp.sm (List.range br.timestamps.length)
    (fun i hi c hc => hrows i (List.mem_range.1 hi) c hc) smp rfl

theorem paths_reach_allRowValues (m : marshalFuncs) (br : blockResult) (smp : statsMinProcessor)
    (hn : br.timestamps ≠ []) (hpa : ∀ c ∈ selectedColumns smp.sm br, c.pathsAgree m br) :
    smp.updateStatsForEveryRow m br = .ok (foldValues smp (allRowValues m smp.sm br)) ∧
    (smp.updateStatsForAllRows m br).map Prod.fst
      = .ok (foldValues smp (allRowValues m smp.sm br)) := by
  have hcov := fun c hc => column_cover m br c hn (hpa c hc)
  refine ⟨updateStatsForEveryRow_eq m br smp (fun i hi c hc => ?_), ?_⟩
  · obtain ⟨u, hu, _⟩ := (hcov c hc).2.1 i hi
    exact ⟨u, hu⟩
  · rw [updateStatsForAllRows_ok m br smp (fun c => c.foldedValues m br)
      (fun c hc => (hcov c hc).1)]
    congr 1
    symm
    apply foldValues_eq_of_cover
    · intro w hw
      simp only [List.mem_flatten, List.mem_map, exists_exists_and_eq_and] at hw
      obtain ⟨c, hc, hwc⟩ := hw
      obtain ⟨i, hi, hv⟩ := (hcov c hc).2.2 w hwc
      rw [mem_allRowValues]
      exact ⟨i, hi, c, hc, by simp [rowValue, hv]⟩
    · intro w hw
      rw [mem_allRowValues] at hw
      obtain ⟨i, hi, c, hc, hvc⟩ := hw
      obtain ⟨u, hu, x, hx, hle⟩ := (hcov c hc).2.1 i hi
      refine ⟨x, ?_, ?_⟩
      · simp only [List.mem_flatten, List.mem_map, exists_exists_and_eq_and]
        exact ⟨c, hc, hx⟩
      · rw [← hvc]
        simpa [rowValue, hu] using hle

theorem fresh_fold_finalize (s : statsMinProcessor) (xs : List String) (hs : s.hasMin = false)
    (hxs : xs ≠ []) :
    (foldValues s xs).finalizeStats ∈ xs ∧ ∀ x ∈ xs, (foldValues s xs).finalizeStats ≤ x := by
  cases xs with
  | nil => exact absurd rfl hxs
  | cons x xs =>
    have hfin : (foldValues s (x :: xs)).finalizeStats = xs.foldl min x := by
      rw [foldValues_cons_of_not_hasMin _ x xs hs]
      simp [statsMinProcessor.finalizeStats]
    rw [hfin]
    constructor
    · rcases foldl_min_mem x xs with h | h
      · rw [h]; exact List.mem_cons_self _ _
      · exact List.mem_cons_of_mem _ h
    · intro y hy
      rcases List.mem_cons.1 hy with h | h
      · rw [h]; exact (foldl_min_le x xs).1
      · exact (foldl_min_le x xs).2 y h

/-- C18: on a non-empty block in which every selected column is well-formed, is
not the time column, and is either constant or a string column, calling
`updateStatsForRow` on every row in row order and calling
`updateStatsForAllRows` once reach the same state from any starting state. -/
theorem restricted_paths_agree (m : marshalFuncs) (br : blockResult) (smp : statsMinProcessor)
    (hn : br.timestamps ≠ [])
    (hcols : ∀ c ∈ selectedColumns smp.sm br,
      c.isTime = false ∧ c.wellFormed br ∧
        (c.isConst = true ∨ c.valueType = valueType.valueTypeString)) :
    ∃ s : statsMinProcessor,
      smp.updateStatsForEveryRow m br = .ok s ∧
      (smp.updateStatsForAllRows m br).map Prod.fst = .ok s ∧
      s = foldValues smp (allRowValues m smp.sm br) := by
  have hpa : ∀ c ∈ selectedColumns smp.sm br, c.pathsAgree m br := by
    intro c hc
    obtain ⟨ht, hwf, hkind⟩ := hcols c hc
    unfold blockResultColumn.wellFormed at hwf
    unfold blockResultColumn.pathsAgree
    cases hk : c.isConst
    · rcases hkind with h | h
      · rw [hk] at h; cases h
      · simpa [ht, hk, h] using hwf
    · simpa [ht, hk] using hwf
  obtain ⟨h1, h2⟩ := paths_reach_allRowValues m br smp hn hpa
  exact ⟨_, h1, h2, rfl⟩

/-- Witness of C18 on the constant column and the string column of
`mixedBlock`. -/
theorem restricted_paths_agree_witness :
    ∃ s : statsMinProcessor,
      (statsMinProcessor.mk ⟨["x", "s"], false⟩ "" false).updateStatsForEveryRow
        sampleMarshalFuncs mixedBlock = .ok s ∧
      ((statsMinProcessor.mk ⟨["x", "s"], false⟩ "" false).updateStatsForAllRows
        sampleMarshalFuncs mixedBlock).map Prod.fst = .ok s ∧
      s = foldValues (statsMinProcessor.mk ⟨["x", "s"], false⟩ "" false)
        (allRowValues sampleMarshalFuncs ⟨["x", "s"], false⟩ mixedBlock) :=
  restricted_paths_agree sampleMarshalFuncs mixedBlock
    (statsMinProcessor.mk ⟨["x", "s"], false⟩ "" false) (by decide)
    (fun c hc => by
      simp only [selectedColumns, mixedBlock, blockResult.getColumnByName, blockResult.getColumns,
        Bool.false_eq_true, if_false, List.map_cons, List.map_nil, List.find?, List.mem_cons,
        List.mem_singleton, List.not_mem_nil, or_false] at hc
      rcases hc with rfl | rfl
      · simp [blockResultColumn.wellFormed]
      · simp [blockResultColumn.wellFormed]
        rfl)

theorem getValueAtRow_dict_ok (m : marshalFuncs) (br : blockResult) (c : blockResultColumn)
    (ht : c.isTime = false) (hc : c.isConst = false)
    (hvt : c.valueType = valueType.valueTypeDict) (hwf : c.wellFormed br) (i : Nat)
    (hi : i < br.timestamps.length) : ∃ v, c.getValueAtRow m br i = .ok v := by
  simp only [blockResultColumn.wellFormed, ht, hc, hvt, Bool.false_eq_true, if_false] at hwf
  obtain ⟨hpl, hidx⟩ := hwf
  have hi2 : i < c.valuesPayload.length := by rw [hpl]; exact hi
  have hp : c.valuesPayload.get ⟨i, hi2⟩ < c.dictValues.length := hidx _ (List.get_mem _ _ _)
  refine ⟨c.dictValues.get ⟨_, hp⟩, ?_⟩
  have hr : c.getValueAtRow m br i = (index c.valuesPayload i).bind (index c.dictValues) := by
    simp [blockResultColumn.getValueAtRow, hc, ht, hvt]
  rw [hr, index_of_lt _ i hi2]
  exact index_of_lt _ _ hp

/-- C11, refuted as stated: on the two-row block whose dictionary column has the
entries "a" and "b" and holds "b" in both rows, a well-formed column whose rows
are all entries of the dictionary, the per-row path finalizes to "b" and the
whole-block path finalizes to "a", which no row holds. -/
theorem dict_paths_differ_on_unused_entry :
    (∀ c ∈ dictBlock.getColumns, c.wellFormed dictBlock) ∧
    ((statsMin.newStatsProcessor ⟨["d"], false⟩).1.updateStatsForEveryRow sampleMarshalFuncs
        dictBlock).map statsMinProcessor.finalizeStats = .ok "b" ∧
    ((statsMin.newStatsProcessor ⟨["d"], false⟩).1.updateStatsForAllRows sampleMarshalFuncs
        dictBlock).map (fun r => r.1.finalizeStats) = .ok "a" := by
  refine ⟨?_, by decide, by decide⟩
  simp [dictBlock, blockResult.getColumns, blockResultColumn.wellFormed]

/-- C11, amended: on a non-empty block, for a selector that selects one
well-formed non-constant dictionary column, the per-row path from a fresh state
finalizes to the lexically smallest row value; and when every dictionary entry
is the value of some row, the whole-block path finalizes to the same value. -/
theorem dict_paths_finalize_smallest_row_value (m : marshalFuncs) (br : blockResult)
    (c : blockResultColumn) (sm : statsMin) (hn : br.timestamps ≠ [])
    (hsel : selectedColumns sm br = [c]) (ht : c.isTime = false) (hc : c.isConst = false)
    (hvt : c.valueType = valueType.valueTypeDict) (hwf : c.wellFormed br) :
    ∃ (s : statsMinProcessor) (v : String),
      sm.newStatsProcessor.1.updateStatsForEveryRow m br = .ok s ∧ s.finalizeStats = v ∧
      (∃ i, i < br.timestamps.length ∧ c.getValueAtRow m br i = .ok v) ∧
      (∀ i r, i < br.timestamps.length → c.getValueAtRow m br i = .ok r → ¬ r < v) ∧
      ((∀ d ∈ c.dictValues, ∃ p ∈ c.valuesPayload, c.dictValues.get? p = some d) →
        (sm.newStatsProcessor.1.updateStatsForAllRows m br).map (fun r => r.1.finalizeStats)
          = .ok v) := by
  have hsel2 : selectedColumns sm.newStatsProcessor.1.sm br = [c] := hsel
  have hread := getValueAtRow_dict_ok m br c ht hc hvt hwf
  have hrows := updateStatsForEveryRow_eq m br sm.newStatsProcessor.1 (fun i hi d hd => by
    rw [hsel2, List.mem_singleton] at hd
    rw [hd]; exact hread i hi)
  have hpos : 0 < br.timestamps.length :=
    Nat.pos_of_ne_zero (fun h => hn (List.length_eq_zero.1 h))
  have hmem : ∀ v, v ∈ allRowValues m sm br ↔
      ∃ i, i < br.timestamps.length ∧ c.getValueAtRow m br i = .ok v := by
    intro v
    rw [mem_allRowValues, hsel]
    constructor
    · rintro ⟨i, hi, d, hd, hv⟩
      rw [List.mem_singleton] at hd
      subst hd
      obtain ⟨u, hu⟩ := hread i hi
      refine ⟨i, hi, ?_⟩
      rw [← hv, hu]
      simp [rowValue, hu]
    · rintro ⟨i, hi, hv⟩
      exact ⟨i, hi, c, List.mem_singleton.2 rfl, by simp [rowValue, hv]⟩
  have hne : allRowValues m sm br ≠ [] := by
    obtain ⟨u, hu⟩ := hread 0 hpos
    exact List.ne_nil_of_mem ((hmem u).2 ⟨0, hpos, hu⟩)
  obtain ⟨hin, hle⟩ := fresh_fold_finalize sm.newStatsProcessor.1 (allRowValues m sm br) rfl hne
  refine ⟨_, _, hrows, rfl, (hmem _).1 hin, fun i r hi hr => ?_, fun hused => ?_⟩
  · exact not_lt.2 (hle r ((hmem r).2 ⟨i, hi, hr⟩))
  · have hpa : ∀ d ∈ selectedColumns sm.newStatsProcessor.1.sm br, d.pathsAgree m br := by
      intro d hd
      rw [hsel2, List.mem_singleton] at hd
      subst hd
      simp only [blockResultColumn.wellFormed, ht, hc, hvt, Bool.false_eq_true, if_false] at hwf
      simp only [blockResultColumn.pathsAgree, ht, hc, hvt, Bool.false_eq_true, if_false]
      exact ⟨hwf.1, hwf.2, hused⟩
    obtain ⟨_, h2⟩ := paths_reach_allRowValues m br sm.newStatsProcessor.1 hn hpa
    obtain ⟨r, hr, hr1⟩ := ok_of_map_fst_ok _ _ h2
    rw [hr]
    simp only [Except.map, hr1]

/-- Witness of the amended C11: the rows "b", "a", "a", "c" over the dictionary
"a", "b", "c" finalize to "a" on both paths. -/
theorem dict_paths_finalize_smallest_row_value_witness :
    (∃ (s : statsMinProcessor) (v : String),
      (statsMin.newStatsProcessor ⟨["d"], false⟩).1.updateStatsForEveryRow sampleMarshalFuncs
        mixedBlock = .ok s ∧ s.finalizeStats = v ∧
      (∃ i, i < mixedBlock.timestamps.length ∧
        (mixedBlock.getColumnByName "d").getValueAtRow sampleMarshalFuncs mixedBlock i = .ok v) ∧
      (∀ i r, i < mixedBlock.timestamps.length →
        (mixedBlock.getColumnByName "d").getValueAtRow sampleMarshalFuncs mixedBlock i = .ok r →
        ¬ r < v) ∧
      ((∀ d ∈ (mixedBlock.getColumnByName "d").dictValues,
          ∃ p ∈ (mixedBlock.getColumnByName "d").valuesPayload,
            (mixedBlock.getColumnByName "d").dictValues.get? p = some d) →
        ((statsMin.newStatsProcessor ⟨["d"], false⟩).1.updateStatsForAllRows sampleMarshalFuncs
          mixedBlock).map (fun r => r.1.finalizeStats) = .ok v)) ∧
    ((statsMin.newStatsProcessor ⟨["d"], false⟩).1.updateStatsForEveryRow sampleMarshalFuncs
        mixedBlock).map statsMinProcessor.finalizeStats = .ok "a" ∧
    ((statsMin.newStatsProcessor ⟨["d"], false⟩).1.updateStatsForAllRows sampleMarshalFuncs
        mixedBlock).map (fun r => r.1.finalizeStats) = .ok "a" :=
  ⟨dict_paths_finalize_smallest_row_value sampleMarshalFuncs mixedBlock
    (mixedBlock.getColumnByName "d") ⟨["d"], false⟩ (by decide) rfl rfl rfl rfl
    (by simp [blockResultColumn.wellFormed, blockResult.getColumnByName, blockResult.getColumns,
      mixedBlock]),
   by decide, by decide⟩

/-! ## The state invariant and the wildcard -/

theorem updateStateForColumn_exists_fold (m : marshalFuncs) (br : blockResult)
    (c : blockResultColumn) (s r : statsMinProcessor)
    (h : s.updateStateForColumn m br c = .ok r) : ∃ vals, r = foldValues s vals := by
  by_cases hn : br.timestamps = []
  · rw [updateStateForColumn_of_empty m br c s hn] at h
    exact ⟨[], by injection h with h; exact h.symm⟩
  · by_cases hf : c.foldsWithoutPanic
    · rw [updateStateForColumn_eq_foldedValues m br c hn hf s] at h
      exact ⟨_, by injection h with h; exact h.symm⟩
    · exfalso
      have hlen : br.timestamps.length ≠ 0 := fun h => hn (List.length_eq_zero.1 h)
      simp only [blockResultColumn.foldsWithoutPanic, not_or, not_and] at hf
      obtain ⟨ht, hk, hv⟩ := hf
      have ht2 : c.isTime = false := by simpa using ht
      cases hc : c.isConst
      · cases hvt : c.valueType with
        | valueTypeUnknown tag =>
          simp [statsMinProcessor.updateStateForColumn, hlen, ht2, hc, hvt] at h
        | _ => exact hv hc (by rw [hvt]; rfl)
      · have hve : c.valuesEncoded = [] := by
          by_contra hne
          exact hk hc hne
        simp [statsMinProcessor.updateStateForColumn, hlen, ht2, hc, hve] at h

theorem updateStateForValueAtRow_exists_fold (m : marshalFuncs) (br : blockResult) (rowIdx : Nat)
    (c : blockResultColumn) (s r : statsMinProcessor)
    (h : s.updateStateForValueAtRow m br rowIdx c = .ok r) : ∃ vals, r = foldValues s vals := by
  unfold statsMinProcessor.updateStateForValueAtRow at h
  cases hv : c.getValueAtRow m br rowIdx with
  | error e => rw [hv] at h; cases h
  | ok v =>
    rw [hv] at h
    refine ⟨[v], ?_⟩
    simp only [Except.map, Except.ok.injEq] at h
    rw [← h]; rfl

theorem foldlM_exists_fold {α : Type} (f : statsMinProcessor → α → Except panic statsMinProcessor)
    (hf : ∀ s x r, f s x = .ok r → ∃ vals, r = foldValues s vals) (l : List α)
    (s r : statsMinProcessor) (h : l.foldlM f s = .ok r) : ∃ vals, r = foldValues s vals := by
  induction l generalizing s with
  | nil =>
    refine ⟨[], ?_⟩
    simp only [List.foldlM_nil] at h
    injection h with h
    exact h.symm
  | cons x xs ih =>
    simp only [List.foldlM_cons] at h
    cases hx : f s x with
    | error e => rw [hx] at h; cases h
    | ok t =>
      rw [hx] at h
      obtain ⟨v1, h1⟩ := hf s x t hx
      obtain ⟨v2, h2⟩ := ih t h
      exact ⟨v1 ++ v2, by rw [foldValues_append, ← h1, h2]⟩

theorem updateStatsForRow_exists_fold (m : marshalFuncs) (br : blockResult) (rowIdx : Nat)
    (s : statsMinProcessor) (r : statsMinProcessor × Int)
    (h : s.updateStatsForRow m br rowIdx = .ok r) : ∃ vals, r.1 = foldValues s vals := by
  unfold statsMinProcessor.updateStatsForRow at h
  simp only at h
  split at h
  · cases hfold : br.getColumns.foldlM
        (fun s c => s.updateStateForValueAtRow m br rowIdx c) s with
    | error e => rw [hfold] at h; cases h
    | ok t =>
      rw [hfold] at h
      simp only [Except.map, Except.ok.injEq] at h
      rw [← h]
      exact foldlM_exists_fold _
        (fun s c r hr => updateStateForValueAtRow_exists_fold m br rowIdx c s r hr) _ _ _ hfold
  · cases hfold : s.sm.fields.foldlM
        (fun s field => s.updateStateForValueAtRow m br rowIdx (br.getColumnByName field)) s with
    | error e => rw [hfold] at h; cases h
    | ok t =>
      rw [hfold] at h
      simp only [Except.map, Except.ok.injEq] at h
      rw [← h]
      exact foldlM_exists_fold _
        (fun s field r hr => updateStateForValueAtRow_exists_fold m br rowIdx _ s r hr) _ _ _ hfold

theorem updateStatsForAllRows_exists_fold (m : marshalFuncs) (br : blockResult)
    (s : statsMinProcessor) (r : statsMinProcessor × Int)
    (h : s.updateStatsForAllRows m br = .ok r) : ∃ vals, r.1 = foldValues s vals := by
  unfold statsMinProcessor.updateStatsForAllRows at h
  simp only at h
  split at h
  · cases hfold : br.getColumns.foldlM (fun s c => s.updateStateForColumn m br c) s with
    | error e => rw [hfold] at h; cases h
    | ok t =>
      rw [hfold] at h
      simp only [Except.map, Except.ok.injEq] at h
      rw [← h]
      exact foldlM_exists_fold _
        (fun s c r hr => updateStateForColumn_exists_fold m br c s r hr) _ _ _ hfold
  · cases hfold : s.sm.fields.foldlM
        (fun s field => s.updateStateForColumn m br (br.getColumnByName field)) s with
    | error e => rw [hfold] at h; cases h
    | ok t =>
      rw [hfold] at h
      simp only [Except.map, Except.ok.injEq] at h
      rw [← h]
      exact foldlM_exists_fold _
        (fun s field r hr => updateStateForColumn_exists_fold m br _ s r hr) _ _ _ hfold

theorem foldValues_invariant (s : statsMinProcessor) (vals : List String)
    (hs : s.hasMin = false → s.min = "") :
    (foldValues s vals).hasMin = false → (foldValues s vals).min = "" := by
  cases vals with
  | nil => exact hs
  | cons v vs =>
    intro h
    rw [foldValues_hasMin_of_ne_nil s (v :: vs) (List.cons_ne_nil _ _)] at h
    cases h

theorem mergeState_exists_fold (s src : statsMinProcessor) :
    ∃ vals, (s.mergeState src).1 = foldValues s vals := by
  unfold statsMinProcessor.mergeState
  split
  · exact ⟨[src.min], rfl⟩
  · exact ⟨[], rfl⟩

/-- C19: in every state reachable from `newStatsProcessor` by calls of
`updateStatsForRow`, `updateStatsForAllRows`, `mergeState` and
`updateStateString`, `hasMin = false` implies that `min` is the empty string;
and none of these operations, from any state with `hasMin = true`, leaves a
state with `hasMin = false`. -/
theorem reachable_invariant (m : marshalFuncs) (sm : statsMin) :
    (∀ s : statsMinProcessor, reachable m sm s → s.hasMin = false → s.min = "") ∧
    (∀ s : statsMinProcessor, s.hasMin = true →
      (∀ v : String, (s.updateStateString v).hasMin = true) ∧
      (∀ src : statsMinProcessor, (s.mergeState src).1.hasMin = true) ∧
      (∀ (br : blockResult) (rowIdx : Nat) (r : statsMinProcessor × Int),
        s.updateStatsForRow m br rowIdx = .ok r → r.1.hasMin = true) ∧
      (∀ (br : blockResult) (r : statsMinProcessor × Int),
        s.updateStatsForAllRows m br = .ok r → r.1.hasMin = true)) := by
  constructor
  · intro s hs
    induction hs with
    | init => intro _; rfl
    | updateStatsForRow s br rowIdx r _ hr ih =>
      obtain ⟨vals, hv⟩ := updateStatsForRow_exists_fold m br rowIdx s r hr
      rw [hv]; exact foldValues_invariant s vals ih
    | updateStatsForAllRows s br r _ hr ih =>
      obtain ⟨vals, hv⟩ := updateStatsForAllRows_exists_fold m br s r hr
      rw [hv]; exact foldValues_invariant s vals ih
    | mergeState s src _ ih =>
      obtain ⟨vals, hv⟩ := mergeState_exists_fold s src
      rw [hv]; exact foldValues_invariant s vals ih
    | updateStateString s v _ ih =>
      exact foldValues_invariant s [v] ih
  · intro s hs
    refine ⟨fun v => updateStateString_hasMin s v, fun src => ?_, fun br rowIdx r hr => ?_,
      fun br r hr => ?_⟩
    · obtain ⟨vals, hv⟩ := mergeState_exists_fold s src
      rw [hv]; exact foldValues_hasMin_of_hasMin s vals hs
    · obtain ⟨vals, hv⟩ := updateStatsForRow_exists_fold m br rowIdx s r hr
      rw [hv]; exact foldValues_hasMin_of_hasMin s vals hs
    · obtain ⟨vals, hv⟩ := updateStatsForAllRows_exists_fold m br s r hr
      rw [hv]; exact foldValues_hasMin_of_hasMin s vals hs

/-- C20: `parseStatsMin` sets `containsStar` exactly when "*" is among the
parsed fields; and two processors with `containsStar = true`, whatever their
fields, fold every column of the block in both update operations and so leave
the same `min` and `hasMin` and return the same integer. -/
theorem wildcard_precedence (m : marshalFuncs) (br : blockResult) (s1 s2 : statsMinProcessor)
    (h1 : s1.sm.containsStar = true) (h2 : s2.sm.containsStar = true)
    (hmin : s1.min = s2.min) (hhas : s1.hasMin = s2.hasMin) :
    (∀ fields : List String, ∃ sm : statsMin, parseStatsMin (.ok fields) = .ok sm ∧
      sm.fields = fields ∧ (sm.containsStar = true ↔ "*" ∈ fields)) ∧
    (s1.updateStatsForAllRows m br).map Prod.fst
      = br.getColumns.foldlM (fun s c => s.updateStateForColumn m br c) s1 ∧
    (∀ rowIdx : Nat, (s1.updateStatsForRow m br rowIdx).map Prod.fst
      = br.getColumns.foldlM (fun s c => s.updateStateForValueAtRow m br rowIdx c) s1) ∧
    (s1.updateStatsForAllRows m br).map observed = (s2.updateStatsForAllRows m br).map observed ∧
    (∀ rowIdx : Nat, (s1.updateStatsForRow m br rowIdx).map observed
      = (s2.updateStatsForRow m br rowIdx).map observed) := by
  have h12 : s1 = s2.withSm s1.sm := by
    cases s1; cases s2; simp_all [statsMinProcessor.withSm]
  refine ⟨fun fields => ⟨_, rfl, rfl, by simp⟩, ?_, fun rowIdx => ?_, ?_, fun rowIdx => ?_⟩
  · unfold statsMinProcessor.updateStatsForAllRows
    simp only [h1, if_true]
    cases br.getColumns.foldlM (fun s c => s.updateStateForColumn m br c) s1 with
    | error e => rfl
    | ok r => rfl
  · unfold statsMinProcessor.updateStatsForRow
    simp only [h1, if_true]
    cases br.getColumns.foldlM (fun s c => s.updateStateForValueAtRow m br rowIdx c) s1 with
    | error e => rfl
    | ok r => rfl
  · unfold statsMinProcessor.updateStatsForAllRows
    simp only [h1, h2, if_true]
    conv_lhs => rw [h12, foldlM_map_comm (statsMinProcessor.withSm s1.sm) _
      (withSm_updateStateForColumn m s1.sm br)]
    cases br.getColumns.foldlM (fun s c => s.updateStateForColumn m br c) s2 with
    | error e => rfl
    | ok r => rfl
  · unfold statsMinProcessor.updateStatsForRow
    simp only [h1, h2, if_true]
    conv_lhs => rw [h12, foldlM_map_comm (statsMinProcessor.withSm s1.sm) _
      (withSm_updateStateForValueAtRow m s1.sm br rowIdx)]
    cases br.getColumns.foldlM (fun s c => s.updateStateForValueAtRow m br rowIdx c) s2 with
    | error e => rfl
    | ok r => rfl

/-- Witness of C20: the selector "a", "*" against the selector "*" on
`mixedBlock`, both as `parseStatsMin` builds them. -/
theorem wildcard_precedence_witness :
    parseStatsMin (.ok ["a", "*"]) = .ok ⟨["a", "*"], true⟩ ∧
    parseStatsMin (.ok ["*"]) = .ok ⟨["*"], true⟩ ∧
    parseStatsMin (.ok ["a", "b"]) = .ok ⟨["a", "b"], false⟩ ∧
    ((statsMinProcessor.mk ⟨["a", "*"], true⟩ "" false).updateStatsForAllRows sampleMarshalFuncs
        mixedBlock).map observed
      = ((statsMinProcessor.mk ⟨["*"], true⟩ "" false).updateStatsForAllRows sampleMarshalFuncs
        mixedBlock).map observed ∧
    (∀ rowIdx : Nat,
      ((statsMinProcessor.mk ⟨["a", "*"], true⟩ "" false).updateStatsForRow sampleMarshalFuncs
          mixedBlock rowIdx).map observed
        = ((statsMinProcessor.mk ⟨["*"], true⟩ "" false).updateStatsForRow sampleMarshalFuncs
          mixedBlock rowIdx).map observed) :=
  ⟨by decide, by decide, by decide,
   (wildcard_precedence sampleMarshalFuncs mixedBlock
    (statsMinProcessor.mk ⟨["a", "*"], true⟩ "" false)
    (statsMinProcessor.mk ⟨["*"], true⟩ "" false) rfl rfl rfl rfl).2.2.2.1,
   (wildcard_precedence sampleMarshalFuncs mixedBlock
    (statsMinProcessor.mk ⟨["a", "*"], true⟩ "" false)
    (statsMinProcessor.mk ⟨["*"], true⟩ "" false) rfl rfl rfl rfl).2.2.2.2⟩

end logstorage
